import Mathlib

/-!
N-puzzle search (`src/NPuzzle.cpp`): embedding and verified properties.

The puzzle node (`sl::NPuzzleNode`) and the best-first search (`sl::NPuzzle`) of
`src/NPuzzle.cpp` are embedded as pure Lean functions.

Conventions of the embedding

* C++ `int` values are integers (`Int`); `/` and `%` on `int` are the truncating
  `Int.tdiv` and `Int.tmod`.  The product `row * col` in `init`, whose factors the
  program does not bound, is reduced to 32 bits in two's complement (`wrapInt32`), as
  the compiled program does, and then converted to the 64-bit unsigned type of
  `val_.size()` (`toSizeT`) for the comparison.  The other `int` operations (index
  arithmetic on the buffer, the costs `g` and `h`) are computed without reduction.
* `std::vector<int>` is `List Int`.  An access `val[i]` that the code performs outside
  the buffer (undefined behaviour) makes the embedded operation return `none`.
  Division by `col = 0` (undefined as well; the constructor rejects `col < 2`) is the
  total `Int.tdiv`, `Int.tmod`.
* `std::shared_ptr<node>` is `Option NPuzzleNode`.
* `std::unordered_set<node, hash>` is the list of its elements in insertion order;
  lookup compares hash values and then uses `operator==`, as the container does.
* `std::priority_queue` ordered with `operator>` (smallest `getF()` on top) is the list
  of its elements; which of several entries with the same smallest `getF()` is on top is
  left to a choice sequence `tie : Nat → Nat`, read at the number of pops done so far.
* `printSearchInfo` only prints and is left out.
* `Algorithm::cantorExpand` (`Algorithm.h`) and `RandomEngine::randLib`
  (`RandomEngine.h`) are not among the sources: the search takes `cantorExpand` as a
  parameter and `shuffle` takes the draws of the random source as a parameter;
  `Algorithm.cantorExpand` is the function as the spec describes it.
* `(int)sqrt(x)` on an `int` is the integer square root: the `double` square root is
  correctly rounded and far from the next integer for arguments below `2^52`.
-/

namespace sl

/-- Modelled from the spec: the enumeration `Direction` is declared in `NPuzzle.h`,
which is not among the sources.  `NPuzzle.cpp` uses the enumerators `NONE`, `LEFT`,
`UP`, `RIGHT`, `DOWN` and converts the integers `1..4` to the four real moves. -/
inductive Direction where
  | NONE
  | LEFT
  | UP
  | RIGHT
  | DOWN
  deriving DecidableEq, Repr

/-- Modelled from the spec: the fields of `NPuzzleNode` are declared in `NPuzzle.h`,
which is not among the sources; they are the members that `NPuzzle.cpp` reads and
writes (`val`, `emptyPos`, `row`, `col`, `g`, `h`, `parent`, `direc`). -/
structure NPuzzleNode where
  val : List Int
  emptyPos : Int
  row : Int
  col : Int
  g : Int
  h : Int
  parent : Option NPuzzleNode
  direc : Direction

/-- The value that a 32-bit `int` holds for the mathematical result `x` of an `int`
operation: `x` reduced modulo `2^32` into `-2^31 .. 2^31 - 1` (two's complement). -/
def wrapInt32 (x : Int) : Int := (x + 2147483648) % 4294967296 - 2147483648

/-- The conversion of an `int` to `size_t` (unsigned, 64 bits), made when an `int` is
compared with `val_.size()`: reduction modulo `2^64`. -/
def toSizeT (x : Int) : Int := x % 18446744073709551616

namespace NPuzzleNode

/-- The three messages of the `std::range_error` exceptions thrown by `init`. -/
def dimensionError : String := "NPuzzleNode.init(): dimension is at least 2*2"

/-- Message of the second `std::range_error` of `init`. -/
def sizeError : String := "NPuzzleNode.init(): value size must equal to (row * col)"

/-- Message of the third `std::range_error` of `init`. -/
def blankError : String := "NPuzzleNode.init(): value 0 not found"

/-- The loop of `init`: `for (i = 0; i < val_.size(); ++i) if (val_[i] == 0) emptyPos = i;`
run on the remaining values, with the loop counter `i` and the current `emptyPos`. -/
def scanBlank : List Int → Nat → Int → Int
  | [], _, emptyPos => emptyPos
  | v :: vs, i, emptyPos => scanBlank vs (i + 1) (if v = 0 then (i : Int) else emptyPos)

/-- The constructor `NPuzzleNode(val_, row_, col_)` with its call of `init(val_)`.
An exception is the `Except.error` carrying the message of the `std::range_error`.
The test `val_.size() != row * col` multiplies two `int`s (32 bits) and converts the
product to the unsigned 64-bit type of `val_.size()`.  A vector has fewer than `2^62`
elements, so a list that passes the test stands for a vector only when it has fewer
than `2^31` elements, and for these the counter `unsigned i` of the scan and its
conversion to `int` are exact.  The members the constructor leaves alone (`g`, `h`,
`direc`) are given `0`, `0`, `NONE`; `parent` is the null pointer. -/
def init (val_ : List Int) (row_ col_ : Int) : Except String NPuzzleNode :=
  if row_ < 2 ∨ col_ < 2 then
    Except.error dimensionError
  else if (val_.length : Int) ≠ toSizeT (wrapInt32 (row_ * col_)) then
    Except.error sizeError
  else
    let emptyPos := scanBlank val_ 0 (-1)
    if emptyPos = -1 then
      Except.error blankError
    else
      Except.ok
        { val := val_, emptyPos := emptyPos, row := row_, col := col_,
          g := 0, h := 0, parent := none, direc := Direction.NONE }

/-- Method `getRow(i) = i / col`. -/
def getRow (n : NPuzzleNode) (i : Int) : Int := Int.tdiv i n.col

/-- Method `getCol(i) = i % col`. -/
def getCol (n : NPuzzleNode) (i : Int) : Int := Int.tmod i n.col

/-- Method `getSize() = val.size()`. -/
def getSize (n : NPuzzleNode) : Int := (n.val.length : Int)

/-- Method `getF() = g + h`. -/
def getF (n : NPuzzleNode) : Int := n.g + n.h

/-- Method `canMove(direc)`: the `switch` over the direction. -/
def canMove (n : NPuzzleNode) : Direction → Bool
  | Direction.LEFT => n.getCol n.emptyPos != 0
  | Direction.UP => n.getRow n.emptyPos != 0
  | Direction.RIGHT => n.getCol n.emptyPos != n.col - 1
  | Direction.DOWN => n.getRow n.emptyPos != n.row - 1
  | Direction.NONE => true

/-- The `switch` of `move` that sets `displace`. -/
def displace (n : NPuzzleNode) : Direction → Int
  | Direction.LEFT => -1
  | Direction.UP => -n.col
  | Direction.RIGHT => 1
  | Direction.DOWN => n.col
  | Direction.NONE => 0

/-- Function `Algorithms::swap(val[i], val[j])`: `tmp = a; a = b; b = tmp` on two cells of the
buffer (both indices inside it). -/
def swapAt (l : List Int) (i j : Nat) : List Int :=
  let tmp := l.getD i 0
  let l1 := l.set i (l.getD j 0)
  l1.set j tmp

/-- Method `move(direc)`: no legality check is made; the two cells `val[emptyPos]` and
`val[goalPos]` are swapped and `emptyPos` becomes `goalPos`.  The result is `none`
when one of the two indices is outside the buffer (undefined behaviour in C++). -/
def move (n : NPuzzleNode) (d : Direction) : Option NPuzzleNode :=
  let goalPos := n.emptyPos + n.displace d
  if 0 ≤ n.emptyPos ∧ n.emptyPos < n.val.length ∧ 0 ≤ goalPos ∧ goalPos < n.val.length then
    some { n with val := swapAt n.val n.emptyPos.toNat goalPos.toNat, emptyPos := goalPos }
  else
    none

/-- Method `getAdjNode(direc, n)`: `n = *this; n.move(direc);`, the value left in `n`. -/
def getAdjNode (n : NPuzzleNode) (d : Direction) : Option NPuzzleNode :=
  n.move d

/-- Method `operator==`: `getVal() == a.getVal()`. -/
def eqv (a b : NPuzzleNode) : Bool := decide (a.val = b.val)

/-- Method `operator>`: `getF() > a.getF()`. -/
def gt (a b : NPuzzleNode) : Bool := decide (a.getF > b.getF)

/-- Function `hash(n) = (unsigned)Algorithm::cantorExpand(n.getSize(), n.getVal())`.  The
function `cantorExpand` (of `Algorithm.h`, not among the sources) is a parameter; the
conversion to `unsigned` reduces modulo `2^32`. -/
def hash (cantorExpand : Int → List Int → Int) (n : NPuzzleNode) : Nat :=
  (cantorExpand n.getSize n.val % 2 ^ 32).toNat

end NPuzzleNode

/-- The largest `k ≤ bound` with `k * k ≤ n`, searched downwards. -/
def isqrtFrom (n : Nat) : Nat → Nat
  | 0 => 0
  | k + 1 => if (k + 1) * (k + 1) ≤ n then k + 1 else isqrtFrom n k

/-- The value `(int)sqrt(x)` for an `int` `x ≥ 0`: the square root is computed in `double`,
which is exact enough below `2^52` for the truncation to be the integer square root. -/
def isqrt (x : Int) : Int := (isqrtFrom x.toNat x.toNat : Int)

/-- The solver object `sl::NPuzzle`: the members `src`, `des`, `openList`,
`closeList`, `pathDirec`, `pathNode`. -/
structure NPuzzle where
  src : NPuzzleNode
  des : NPuzzleNode
  openList : List NPuzzleNode
  closeList : List NPuzzleNode
  pathDirec : List Direction
  pathNode : List NPuzzleNode

namespace NPuzzle

/-- The constructor `NPuzzle(src_, des_)`: empty frontier, explored set and paths. -/
def new (src_ des_ : NPuzzleNode) : NPuzzle :=
  { src := src_, des := des_, openList := [], closeList := [], pathDirec := [], pathNode := [] }

/-- The test `closeList.find(x) != closeList.end()`: an element with the same hash value that
is `operator==` to `x`. -/
def closeFind (ce : Int → List Int → Int) (closeList : List NPuzzleNode) (x : NPuzzleNode) :
    Bool :=
  closeList.any (fun e => NPuzzleNode.hash ce e == NPuzzleNode.hash ce x && e.eqv x)

/-- The call `closeList.insert(x)`: nothing happens when an equal element is present. -/
def closeInsert (ce : Int → List Int → Int) (closeList : List NPuzzleNode) (x : NPuzzleNode) :
    List NPuzzleNode :=
  if closeFind ce closeList x then closeList else closeList ++ [x]

/-- Method `getSearchCount() = closeList.size()`. -/
def getSearchCount (p : NPuzzle) : Nat := p.closeList.length

/-- Modelled from the spec: the declaration of `openList` (a `std::priority_queue`
with its comparison) is in `NPuzzle.h`, which is not among the sources; as the spec
has it, the queue yields an entry of smallest `getF()`, and which one among several
is not fixed.  These are the entries that may be on top: those not `operator>` any
entry, with their positions. -/
def topCandidates (q : List NPuzzleNode) : List (Nat × NPuzzleNode) :=
  q.enum.filter (fun c => q.all (fun y => !(c.2.gt y)))

/-- The statements `cur = openList.top(); openList.pop();` at pop number `k`: the entry taken and the
rest of the queue; `none` on an empty queue. -/
def openPop (tie : Nat → Nat) (k : Nat) (q : List NPuzzleNode) :
    Option (NPuzzleNode × List NPuzzleNode) :=
  let cs := topCandidates q
  match cs.get? (tie k % cs.length) with
  | none => none
  | some c => some (c.2, q.eraseIdx c.1)

/-- Method `getEstimateDist(n)`: Manhattan distance plus truncated Euclidean distance of
every non-zero tile to the cell `val[i] - 1`. -/
def getEstimateDist (n : NPuzzleNode) : Int :=
  ((List.range n.val.length).map (fun i =>
    let v := n.val.getD i 0
    if v ≠ 0 then
      let curR := n.getRow i
      let curC := n.getCol i
      let desR := n.getRow (v - 1)
      let desC := n.getCol (v - 1)
      let dR := if curR > desR then curR - desR else desR - curR
      let dC := if curC > desC then curC - desC else desC - curC
      (dR + dC) + isqrt (dR * dR + dC * dC)
    else 0)).sum

/-- Method `estimateH(n)` of a solver whose goal is `des`: `1 * s + 1 * w + 1 * d`.  The
second loop reads `desVal[i]` for every `i < n.getSize()`; when the goal's buffer is
shorter than that the read is outside it and the result is `none`. -/
def estimateH (des n : NPuzzleNode) : Option Int :=
  if n.val.length ≤ des.val.length then
    let size := n.getSize
    let s := ((List.range (size - 1).toNat).filter
      (fun i => n.val.getD i 0 + 1 != n.val.getD (i + 1) 0)).length
    let w := ((List.range size.toNat).filter
      (fun i => n.val.getD i 0 != des.val.getD i 0)).length
    let d := getEstimateDist n
    some (1 * (s : Int) + 1 * (w : Int) + 1 * d)
  else
    none

/-- The loop of `constructPath` together with the `pathNode.push_front(*tmp)` after
it, started with `tmp`: while `tmp` has a parent, `tmp` and its direction are pushed
to the front and the walk goes on from the parent; the node without parent is pushed
to `pathNode` only. -/
def walkParents : NPuzzleNode → List NPuzzleNode → List Direction →
    List NPuzzleNode × List Direction
  | ⟨v, e, r, c, g, h, none, d⟩, pathNode, pathDirec =>
      (⟨v, e, r, c, g, h, none, d⟩ :: pathNode, pathDirec)
  | ⟨v, e, r, c, g, h, some p, d⟩, pathNode, pathDirec =>
      walkParents p (⟨v, e, r, c, g, h, some p, d⟩ :: pathNode) (d :: pathDirec)

/-- Method `constructPath()`: `pathDirec` is cleared; when `des` has a parent, the
chain of parents is walked and pushed to the front of both lists. -/
def constructPath (p : NPuzzle) : NPuzzle :=
  match p.des.parent with
  | none => { p with pathDirec := [] }
  | some par =>
      let r := walkParents par (p.des :: p.pathNode) [p.des.direc]
      { p with pathNode := r.1, pathDirec := r.2 }

/-- The four directions `Direction(1)`, ..., `Direction(4)` of the loop over the
neighbours. -/
def directions : List Direction :=
  [Direction.LEFT, Direction.UP, Direction.RIGHT, Direction.DOWN]

/-- One pass of `for (int i = 1; i <= 4; ++i)` in `run`, for the direction `d`: the
frontier after it. -/
def expandDir (ce : Int → List Int → Int) (des cur : NPuzzleNode)
    (closeList : List NPuzzleNode) (openList : List NPuzzleNode) (d : Direction) :
    Option (List NPuzzleNode) :=
  if cur.canMove d then
    match cur.getAdjNode d with
    | none => none
    | some adj =>
        if closeFind ce closeList adj then
          some openList
        else
          let adj1 := { adj with parent := some cur, direc := d, g := cur.g + 1 }
          match estimateH des adj1 with
          | none => none
          | some h1 => some (openList ++ [{ adj1 with h := h1 }])
  else
    some openList

/-- The whole loop over the four directions. -/
def expand (ce : Int → List Int → Int) (des cur : NPuzzleNode)
    (closeList : List NPuzzleNode) (openList : List NPuzzleNode) :
    Option (List NPuzzleNode) :=
  directions.foldlM (fun q d => expandDir ce des cur closeList q d) openList

/-- The inner `do { cur = top(); pop(); } while (!empty() && find(cur) != end())`,
entered with a queue of at most `n` entries at pop number `k`: the node left in
`cur`, the queue and the pop number after it. -/
def popLoop (ce : Int → List Int → Int) (tie : Nat → Nat) (closeList : List NPuzzleNode) :
    Nat → Nat → List NPuzzleNode → Option (NPuzzleNode × List NPuzzleNode × Nat)
  | 0, _, _ => none
  | n + 1, k, q =>
      match openPop tie k q with
      | none => none
      | some (cur, q1) =>
          if !q1.isEmpty && closeFind ce closeList cur then
            popLoop ce tie closeList n (k + 1) q1
          else
            some (cur, q1, k + 1)

/-- How one pass of the body of `while (!openList.empty())` ends. -/
inductive Pass where
  /-- The `break` taken when every entry popped was already explored. -/
  | exhausted (p : NPuzzle)
  /-- The `break` of the branch `cur == des`. -/
  | found (p : NPuzzle)
  /-- The end of the body; the loop condition is tested again. -/
  | next (p : NPuzzle) (k : Nat)

/-- One pass of the body of `while (!openList.empty())`, entered at pop number `k`;
`none` when the pass runs into undefined behaviour. -/
def pass (ce : Int → List Int → Int) (tie : Nat → Nat) (p : NPuzzle) (k : Nat) :
    Option Pass :=
  match popLoop ce tie p.closeList p.openList.length k p.openList with
  | none => none
  | some (cur, q1, k1) =>
      if q1.isEmpty && closeFind ce p.closeList cur then
        some (Pass.exhausted { p with openList := q1 })
      else
        let cl := closeInsert ce p.closeList cur
        if cur.eqv p.des then
          some (Pass.found (constructPath { p with openList := q1, closeList := cl, des := cur }))
        else
          match expand ce p.des cur cl q1 with
          | none => none
          | some q2 => some (Pass.next { p with openList := q2, closeList := cl } k1)

/-- The loop `while (!openList.empty()) { ... }` run for at most `fuel` tests of its
condition.  The result tells whether the loop was left through the branch
`cur == des` and gives the solver after the loop; `none` when `fuel` does not
suffice or a pass is undefined. -/
def loop (ce : Int → List Int → Int) (tie : Nat → Nat) :
    Nat → NPuzzle → Nat → Option (Bool × NPuzzle)
  | 0, _, _ => none
  | fuel + 1, p, k =>
      if p.openList.isEmpty then
        some (false, p)
      else
        match pass ce tie p k with
        | none => none
        | some (Pass.exhausted p1) => some (false, p1)
        | some (Pass.found p1) => some (true, p1)
        | some (Pass.next p1 k1) => loop ce tie fuel p1 k1

/-- The first two statements of `run`: `src.setG(0); openList.push(src);`. -/
def enter (p : NPuzzle) : NPuzzle :=
  { p with src := { p.src with g := 0 }, openList := p.openList ++ [{ p.src with g := 0 }] }

/-- Method `run()`: `src.setG(0); openList.push(src);` and the main loop, for at most
`fuel` tests of the loop condition. -/
def run (ce : Int → List Int → Int) (tie : Nat → Nat) (fuel : Nat) (p : NPuzzle) :
    Option (Bool × NPuzzle) :=
  loop ce tie fuel (enter p) 0

/-- The loop at the end of `test`: `for (d : pathDirec) src.move(d);`. -/
def replay : NPuzzleNode → List Direction → Option NPuzzleNode
  | s, [] => some s
  | s, d :: ds =>
      match s.move d with
      | none => none
      | some s1 => replay s1 ds

/-- The same loop where every move is first tested with `canMove`: `none` as soon as
a move of the list is not legal when it is applied. -/
def legalReplay : NPuzzleNode → List Direction → Option NPuzzleNode
  | s, [] => some s
  | s, d :: ds =>
      if s.canMove d then
        match s.move d with
        | none => none
        | some s1 => legalReplay s1 ds
      else
        none

/-- The solver at the start of the pass number `j` of the main loop (counted from
`0`), with the pop number reached; `none` when the loop stops earlier. -/
def passes (ce : Int → List Int → Int) (tie : Nat → Nat) :
    Nat → NPuzzle → Nat → Option (NPuzzle × Nat)
  | 0, p, k => some (p, k)
  | j + 1, p, k =>
      if p.openList.isEmpty then
        none
      else
        match pass ce tie p k with
        | some (Pass.next p1 k1) => passes ce tie j p1 k1
        | _ => none

end NPuzzle

/-! ## Notions used to state the properties -/

namespace NPuzzleNode

/-- A valid state of an `row × col` puzzle: both dimensions at least 2, the tiles a
permutation of `0 .. row * col - 1`, and `emptyPos` the index of the tile `0`. -/
structure Valid (n : NPuzzleNode) : Prop where
  row_ge : 2 ≤ n.row
  col_ge : 2 ≤ n.col
  size_eq : (n.val.length : Int) = n.row * n.col
  perm : List.Perm n.val ((List.range n.val.length).map Int.ofNat)
  pos_ge : 0 ≤ n.emptyPos
  blank : n.val[n.emptyPos.toNat]? = some 0

/-- Two nodes show the same board: same tiles, blank index and dimensions. -/
def SameTiles (a b : NPuzzleNode) : Prop :=
  a.val = b.val ∧ a.emptyPos = b.emptyPos ∧ a.row = b.row ∧ a.col = b.col

/-- The opposite of a direction (`LEFT`/`RIGHT`, `UP`/`DOWN`). -/
def opposite : Direction → Direction
  | Direction.LEFT => Direction.RIGHT
  | Direction.RIGHT => Direction.LEFT
  | Direction.UP => Direction.DOWN
  | Direction.DOWN => Direction.UP
  | Direction.NONE => Direction.NONE

end NPuzzleNode

namespace NPuzzle

open NPuzzleNode

/-- The goal is reachable from `s`: some list of moves, each legal when applied,
leads from `s` to a state with the tiles of `goal`. -/
def Reachable (s goal : NPuzzleNode) : Prop :=
  ∃ ds fin, legalReplay s ds = some fin ∧ fin.val = goal.val

/-- The relation `Trace start x ds ns`: the parent chain of `x` ends in a node showing the board of
`start`, `ns` lists the chain from that node to `x`, and `ds` the `direc` members of
all its nodes but the first; every node of the chain shows the board its parent
reaches by the legal move `direc`, and has `g` one more than its parent. -/
inductive Trace (start : NPuzzleNode) : NPuzzleNode → List Direction → List NPuzzleNode → Prop
  | root (x : NPuzzleNode) (hp : x.parent = start.parent) (ht : SameTiles x start)
      (hg : x.g = 0) : Trace start x [] [x]
  | step (x p m : NPuzzleNode) (ds : List Direction) (ns : List NPuzzleNode)
      (hp : x.parent = some p) (tp : Trace start p ds ns) (hc : p.canMove x.direc = true)
      (hm : p.move x.direc = some m) (ht : SameTiles m x) (hg : x.g = p.g + 1) :
      Trace start x (ds ++ [x.direc]) (ns ++ [x])

/-- The node `x` is what the loop over the neighbours pushes for the node `cur` and
the direction `d`: a copy of the neighbour of `cur` with `parent`, `direc`, `g` set. -/
def IsChild (cur : NPuzzleNode) (d : Direction) (x : NPuzzleNode) : Prop :=
  x.parent = some cur ∧ x.direc = d ∧ x.g = cur.g + 1 ∧ cur.canMove d = true ∧
    ∃ adj, cur.move d = some adj ∧ SameTiles adj x

/-- The invariant of the main loop of `run` for the start node `start` (with `g = 0`)
and the goal `goal`. -/
structure Inv (start goal : NPuzzleNode) (p : NPuzzle) : Prop where
  des_eq : p.des = goal
  pathD : p.pathDirec = []
  pathN : p.pathNode = []
  trace : ∀ x, x ∈ p.openList ∨ x ∈ p.closeList → ∃ ds ns, Trace start x ds ns
  nodup : (p.closeList.map (fun x => x.val)).Nodup
  notGoal : ∀ x ∈ p.closeList, x.val ≠ goal.val
  closed : ∀ c ∈ p.closeList, ∀ d ∈ directions, c.canMove d = true →
    ∀ m, c.move d = some m →
      (∃ x ∈ p.closeList, x.val = m.val) ∨ (∃ x ∈ p.openList, x.val = m.val)
  startIn : (∃ x ∈ p.closeList, x.val = start.val) ∨ (∃ x ∈ p.openList, x.val = start.val)

/-- The solver after a pass that took the branch `cur == des`: `des` is the accepted
node `cur`, whose parent chain starts at `start`, and (when `start` has no parent)
`pathDirec` is the list of moves of the chain, while `pathNode` is the list of nodes
of the chain if `cur` has a parent and is left empty if it has none. -/
def Found (start goal : NPuzzleNode) (r : NPuzzle) : Prop :=
  ∃ cur ds ns, Trace start cur ds ns ∧ cur.val = goal.val ∧ r.des = cur ∧
    r.closeList ≠ [] ∧ r.closeList.length ≤ (start.val.length).factorial ∧
    (start.parent = none →
      r.pathDirec = ds ∧ (cur.parent = none → r.pathNode = []) ∧
        (cur.parent ≠ none → r.pathNode = ns))

/-- The number of links of the parent chain of a node. -/
def depth : NPuzzleNode → Nat
  | ⟨_, _, _, _, _, _, none, _⟩ => 0
  | ⟨_, _, _, _, _, _, some p, _⟩ => depth p + 1

end NPuzzle

/-! ## Boards used as instances -/

/-- The 2 x 2 board `{1,2,0,3}`, as the constructor builds it. -/
def boardA : NPuzzleNode := ⟨[1, 2, 0, 3], 2, 2, 2, 0, 0, none, Direction.NONE⟩

/-- The 2 x 2 board `{1,2,3,0}`, as the constructor builds it. -/
def boardB : NPuzzleNode := ⟨[1, 2, 3, 0], 3, 2, 2, 0, 0, none, Direction.NONE⟩

/-- The 2 x 2 board `{2,1,3,0}`, as the constructor builds it. -/
def boardC : NPuzzleNode := ⟨[2, 1, 3, 0], 3, 2, 2, 0, 0, none, Direction.NONE⟩

/-- The 3 x 3 start `{1,5,2,7,0,4,6,3,8}` of `NPuzzle::test`. -/
def start3 : NPuzzleNode := ⟨[1, 5, 2, 7, 0, 4, 6, 3, 8], 4, 3, 3, 0, 0, none, Direction.NONE⟩

/-- The 3 x 3 goal `{1,2,3,4,5,6,7,8,0}` of `NPuzzle::test`. -/
def goal3 : NPuzzleNode := ⟨[1, 2, 3, 4, 5, 6, 7, 8, 0], 8, 3, 3, 0, 0, none, Direction.NONE⟩

/-- A solution of the 3 x 3 instance: fourteen moves from `start3` to `goal3`. -/
def path3 : List Direction :=
  [Direction.RIGHT, Direction.DOWN, Direction.LEFT, Direction.LEFT, Direction.UP,
   Direction.RIGHT, Direction.RIGHT, Direction.DOWN, Direction.LEFT, Direction.UP,
   Direction.UP, Direction.RIGHT, Direction.DOWN, Direction.DOWN]

/-- A `cantorExpand` for the instances: the constant `0` (all hash values collide). -/
def ce0 : Int → List Int → Int := fun _ _ => 0

/-- A choice sequence for the instances: always the first candidate. -/
def tie0 : Nat → Nat := fun _ => 0

/-! ## Further parts of the program and notions for the later properties -/

/-- Modelled from the spec: the conversion `Direction(i)` of an integer.  The values
of the enumerators are declared in `NPuzzle.h`, which is not among the sources; `run`
and `shuffle` convert the integers `1..4` to the four real moves, and `NONE` is the
sentinel `0`.  An integer that is no enumerator has no value here. -/
def Direction.ofInt (i : Int) : Option Direction :=
  if i = 0 then some Direction.NONE
  else if i = 1 then some Direction.LEFT
  else if i = 2 then some Direction.UP
  else if i = 3 then some Direction.RIGHT
  else if i = 4 then some Direction.DOWN
  else none

namespace NPuzzleNode

/-- Method `operator<`: `getF() < a.getF()`. -/
def lt (a b : NPuzzleNode) : Bool := decide (a.getF < b.getF)

/-- The loop of `shuffle()`, `k` passes from the pass number `i` on:
`Direction d = Direction(RandomEngine::randLib(1, 4)); if (canMove(d)) move(d);`.
The random source (`RandomEngine.h` is not among the sources) is the parameter `rand`,
which gives the draw of every pass; for a draw that is no enumerator `canMove` takes
its `default` branch and returns false. -/
def shuffleLoop (rand : Nat → Int) : Nat → Nat → NPuzzleNode → Option NPuzzleNode
  | 0, _, n => some n
  | k + 1, i, n =>
      match Direction.ofInt (rand i) with
      | none => shuffleLoop rand k (i + 1) n
      | some d =>
          if n.canMove d then
            match n.move d with
            | none => none
            | some m => shuffleLoop rand k (i + 1) m
          else
            shuffleLoop rand k (i + 1) n

/-- Method `shuffle()`: `for (int i = 0; i < 1000; ++i) ...`. -/
def shuffle (rand : Nat → Int) (n : NPuzzleNode) : Option NPuzzleNode :=
  shuffleLoop rand 1000 0 n

/-- The geometry of a state on a `row × col` grid: both dimensions at least 2,
`row * col` tiles, and the blank index inside the buffer. -/
structure Grid (n : NPuzzleNode) : Prop where
  row_ge : 2 ≤ n.row
  col_ge : 2 ≤ n.col
  size_eq : (n.val.length : Int) = n.row * n.col
  pos_ge : 0 ≤ n.emptyPos
  pos_lt : n.emptyPos < n.val.length

/-- The change of the row of the blank that a direction asks for. -/
def rowStep : Direction → Int
  | Direction.UP => -1
  | Direction.DOWN => 1
  | _ => 0

/-- The change of the column of the blank that a direction asks for. -/
def colStep : Direction → Int
  | Direction.LEFT => -1
  | Direction.RIGHT => 1
  | _ => 0

/-- The cell next to the blank in direction `d` exists inside the grid. -/
def AdjacentInGrid (n : NPuzzleNode) (d : Direction) : Prop :=
  0 ≤ n.emptyPos / n.col + rowStep d ∧ n.emptyPos / n.col + rowStep d < n.row ∧
    0 ≤ n.emptyPos % n.col + colStep d ∧ n.emptyPos % n.col + colStep d < n.col

end NPuzzleNode

namespace Algorithm

/-- Modelled from the spec: the rank that `cantorExpand` computes, on the list of the
values: "repeated counting of inversions scaled by descending factorials", that is,
for every position the number of later values smaller than the value there, times
the factorial of the number of later positions, summed. -/
def cantorRank : List Int → Nat
  | [] => 0
  | x :: xs => (xs.filter (fun y => y < x)).length * xs.length.factorial + cantorRank xs

/-- Modelled from the spec: `Algorithm::cantorExpand(n, a)` of `Algorithm.h`, which is
not among the sources: the permutation rank of the first `n` values of `a`, the
0-based lexicographic index among the permutations of `0..n-1`. -/
def cantorExpand (n : Int) (a : List Int) : Int :=
  (cantorRank (a.take n.toNat) : Int)

end Algorithm

namespace NPuzzle

/-- The number of positions `i` in `0..size-2` with `tiles[i] + 1 != tiles[i+1]`, as the
spec words the sequence-adjacency penalty. -/
def specAdjacency (tiles : List Int) : Nat :=
  ((List.range (tiles.length - 1)).filter
    (fun i => decide (tiles.getD i 0 + 1 ≠ tiles.getD (i + 1) 0))).length

/-- The number of positions `i` with `tiles[i] != goal[i]`, as the spec words the
misplaced-tile count (the position of the blank included). -/
def specMisplaced (tiles goal : List Int) : Nat :=
  ((List.range tiles.length).filter
    (fun i => decide (tiles.getD i 0 ≠ goal.getD i 0))).length

/-- The geometric distance as the spec words it: the sum over every non-blank tile `v`
at index `i` of `|row(i) - row(v-1)| + |col(i) - col(v-1)|` plus the floor of the square
root of `(row(i) - row(v-1))^2 + (col(i) - col(v-1))^2`, with `row(k) = k div cols` and
`col(k) = k mod cols`. -/
def specDistance (cols : Int) (tiles : List Int) : Int :=
  ((List.range tiles.length).map (fun i =>
    let v := tiles.getD i 0
    if v = 0 then 0
    else
      (|(i : Int) / cols - (v - 1) / cols| + |(i : Int) % cols - (v - 1) % cols|) +
        (Nat.sqrt (((i : Int) / cols - (v - 1) / cols) ^ 2 +
          ((i : Int) % cols - (v - 1) % cols) ^ 2).toNat : Int))).sum

/-- The moves `direc` along the parent chain of a node, from the node after the root
to the node itself. -/
def chainMoves : NPuzzleNode → List Direction
  | ⟨_, _, _, _, _, _, none, _⟩ => []
  | ⟨_, _, _, _, _, _, some p, d⟩ => chainMoves p ++ [d]

/-- The root of the parent chain of a node: the ancestor without parent. -/
def chainRoot : NPuzzleNode → NPuzzleNode
  | ⟨v, e, r, c, g, h, none, d⟩ => ⟨v, e, r, c, g, h, none, d⟩
  | ⟨_, _, _, _, _, _, some p, _⟩ => chainRoot p

/-- Every node of the frontier and of the explored set has `g` equal to the length
of its parent chain, the root of the chain shows the tiles of `start`, and the moves
of the chain, replayed from `start`, are all legal and lead to the tiles of the node. -/
def CostOK (start : NPuzzleNode) (p : NPuzzle) : Prop :=
  ∀ x, x ∈ p.openList ∨ x ∈ p.closeList →
    x.g = (depth x : Int) ∧ (chainRoot x).val = start.val ∧
      (chainMoves x).length = depth x ∧
      ∃ fin, legalReplay start (chainMoves x) = some fin ∧ fin.val = x.val

end NPuzzle

/-- An arrangement of the 4 x 4 grid whose rank is `2^32`. -/
def perm16b : NPuzzleNode :=
  ⟨[0, 1, 2, 11, 15, 9, 8, 13, 3, 4, 7, 5, 12, 14, 6, 10], 0, 4, 4, 0, 0, none,
    Direction.NONE⟩

/-- The arrangement `{0, 1, ..., 15}` of the 4 x 4 grid. -/
def perm16a : NPuzzleNode :=
  ⟨[0, 1, 2, 3, 4, 5, 6, 7, 8, 9, 10, 11, 12, 13, 14, 15], 0, 4, 4, 0, 0, none,
    Direction.NONE⟩


/-! ## Arithmetic and list facts -/

theorem tdivmod_decomp {e c : Int} (he : 0 ≤ e) (hc : 0 < c) :
    e = c * Int.tdiv e c + Int.tmod e c ∧ 0 ≤ Int.tmod e c ∧ Int.tmod e c < c ∧
      0 ≤ Int.tdiv e c := by
  rw [Int.tdiv_eq_ediv he hc.le, Int.tmod_eq_emod he hc.le]
  refine ⟨?_, Int.emod_nonneg _ hc.ne', Int.emod_lt_of_pos _ hc, Int.ediv_nonneg he hc.le⟩
  have := Int.emod_add_ediv e c
  omega

theorem tdivmod_unique {c q r : Int} (hc : 0 < c) (hq : 0 ≤ q) (hr : 0 ≤ r) (hrc : r < c) :
    Int.tdiv (c * q + r) c = q ∧ Int.tmod (c * q + r) c = r := by
  have he : 0 ≤ c * q + r := by positivity
  rw [Int.tdiv_eq_ediv he hc.le, Int.tmod_eq_emod he hc.le]
  exact (Int.ediv_emod_unique (a := c * q + r) (r := r) (q := q) hc).2 ⟨by ring, hr, hrc⟩

namespace NPuzzleNode

theorem count_swapAt (l : List Int) (i j : Nat) (hi : i < l.length) (hj : j < l.length)
    (x : Int) : (swapAt l i j).count x = l.count x := by
  unfold swapAt
  rw [List.count_set _ _ _ _ (by simpa using hj), List.count_set _ _ _ _ hi]
  simp only [List.getD_eq_getElem?_getD, List.getElem?_eq_getElem hi, List.getElem?_eq_getElem hj,
    Option.getD_some, List.getElem_set]
  have h1 := List.boole_getElem_le_countP (fun y => y == x) l i hi
  have h2 := List.boole_getElem_le_countP (fun y => y == x) l j hj
  simp only [← List.count_eq_countP] at h1 h2
  by_cases hij : i = j
  · subst hij
    simp only [if_true]
    split_ifs at h1 ⊢ <;> omega
  · simp only [hij, if_false]
    split_ifs at h1 h2 ⊢ <;> omega

theorem swapAt_perm (l : List Int) (i j : Nat) (hi : i < l.length) (hj : j < l.length) :
    List.Perm (swapAt l i j) l :=
  List.perm_iff_count.2 (count_swapAt l i j hi hj)

theorem length_swapAt (l : List Int) (i j : Nat) : (swapAt l i j).length = l.length := by
  simp [swapAt]

theorem getElem?_swapAt (l : List Int) (i j k : Nat) (hi : i < l.length) (hj : j < l.length) :
    (swapAt l i j)[k]? = if k = j then l[i]? else if k = i then l[j]? else l[k]? := by
  unfold swapAt
  simp only [List.getD_eq_getElem?_getD, List.getElem?_eq_getElem hi, List.getElem?_eq_getElem hj,
    Option.getD_some, List.getElem?_set]
  by_cases hkj : k = j
  · subst hkj; simp [hj]
  · by_cases hki : k = i
    · subst hki; simp [hkj, Ne.symm hkj, hi]
    · simp [hkj, hki, Ne.symm hkj, Ne.symm hki]

theorem swapAt_swapAt (l : List Int) (i j : Nat) (hi : i < l.length) (hj : j < l.length) :
    swapAt (swapAt l i j) j i = l := by
  apply List.ext_getElem?
  intro k
  rw [getElem?_swapAt _ _ _ _ (by simpa [length_swapAt] using hj)
    (by simpa [length_swapAt] using hi), getElem?_swapAt _ _ _ _ hi hj,
    getElem?_swapAt _ _ _ _ hi hj, getElem?_swapAt _ _ _ _ hi hj]
  by_cases hki : k = i
  · subst hki; simp
  · by_cases hkj : k = j
    · subst hkj; simp [hki]
      intro h; exact absurd h.symm hki
    · simp [hki, hkj]

theorem move_eq_some {n m : NPuzzleNode} {d : Direction} (h : n.move d = some m) :
    (0 ≤ n.emptyPos ∧ n.emptyPos < n.val.length ∧ 0 ≤ n.emptyPos + n.displace d ∧
        n.emptyPos + n.displace d < n.val.length) ∧
      m = { n with val := swapAt n.val n.emptyPos.toNat (n.emptyPos + n.displace d).toNat,
                   emptyPos := n.emptyPos + n.displace d } := by
  unfold move at h
  simp only at h
  split at h
  · rename_i hb
    exact ⟨hb, (Option.some.inj h).symm⟩
  · exact absurd h (by simp)

theorem move_of_inBounds (n : NPuzzleNode) (d : Direction)
    (hb : 0 ≤ n.emptyPos ∧ n.emptyPos < n.val.length ∧ 0 ≤ n.emptyPos + n.displace d ∧
        n.emptyPos + n.displace d < n.val.length) :
    n.move d = some { n with val := swapAt n.val n.emptyPos.toNat (n.emptyPos + n.displace d).toNat,
                             emptyPos := n.emptyPos + n.displace d } := by
  unfold move
  simp only
  rw [if_pos hb]


/-! ## Geometry of a move -/

theorem Valid.pos_lt {n : NPuzzleNode} (hv : Valid n) : n.emptyPos < n.val.length := by
  have hb := hv.blank
  have h2 : n.emptyPos.toNat < n.val.length := by
    by_contra hc
    rw [List.getElem?_eq_none (by omega)] at hb
    simp at hb
  have := hv.pos_ge
  omega

theorem Valid.of_sameTiles {a b : NPuzzleNode} (hv : Valid a) (h : SameTiles a b) : Valid b := by
  obtain ⟨h1, h2, h3, h4⟩ := h
  exact ⟨h3 ▸ hv.row_ge, h4 ▸ hv.col_ge, by rw [← h1, ← h3, ← h4]; exact hv.size_eq,
    by rw [← h1]; exact hv.perm, h2 ▸ hv.pos_ge, by rw [← h1, ← h2]; exact hv.blank⟩

/-- The row of the blank is below the number of rows. -/
theorem Valid.row_lt {n : NPuzzleNode} (hv : Valid n) : Int.tdiv n.emptyPos n.col < n.row := by
  have hc : 0 < n.col := by have := hv.col_ge; omega
  obtain ⟨hdec, hr0, hrc, hq0⟩ := tdivmod_decomp hv.pos_ge hc
  have hlt := hv.pos_lt
  rw [hv.size_eq] at hlt
  by_contra hcon
  have hle : n.row ≤ Int.tdiv n.emptyPos n.col := not_lt.1 hcon
  have : n.col * n.row ≤ n.col * Int.tdiv n.emptyPos n.col :=
    mul_le_mul_of_nonneg_left hle hc.le
  nlinarith

/-- A legal move keeps both cells of the swap inside the buffer. -/
theorem Valid.inBounds {n : NPuzzleNode} (hv : Valid n) {d : Direction}
    (hd : n.canMove d = true) :
    0 ≤ n.emptyPos ∧ n.emptyPos < n.val.length ∧ 0 ≤ n.emptyPos + n.displace d ∧
        n.emptyPos + n.displace d < n.val.length := by
  have hc : 0 < n.col := by have := hv.col_ge; omega
  obtain ⟨hdec, hr0, hrc, hq0⟩ := tdivmod_decomp hv.pos_ge hc
  have hlt := hv.pos_lt
  have hrow := hv.row_lt
  have hsz := hv.size_eq
  have hpos := hv.pos_ge
  have hcq : 0 ≤ n.col * Int.tdiv n.emptyPos n.col := mul_nonneg hc.le hq0
  refine ⟨hpos, hlt, ?_, ?_⟩
  · cases d <;> simp only [canMove, getRow, getCol, displace, bne_iff_ne, ne_eq] at hd ⊢
    · omega
    · omega
    · have h1 : 1 ≤ Int.tdiv n.emptyPos n.col := by omega
      have : n.col * 1 ≤ n.col * Int.tdiv n.emptyPos n.col :=
        mul_le_mul_of_nonneg_left h1 hc.le
      linarith
    · omega
    · linarith
  · rw [hsz] at hlt ⊢
    cases d <;> simp only [canMove, getRow, getCol, displace, bne_iff_ne, ne_eq] at hd ⊢
    · omega
    · omega
    · linarith
    · have h1 : Int.tdiv n.emptyPos n.col ≤ n.row - 1 := by omega
      have : n.col * Int.tdiv n.emptyPos n.col ≤ n.col * (n.row - 1) :=
        mul_le_mul_of_nonneg_left h1 hc.le
      have h2 : Int.tmod n.emptyPos n.col ≤ n.col - 2 := by omega
      nlinarith
    · have h1 : Int.tdiv n.emptyPos n.col ≤ n.row - 2 := by omega
      have : n.col * Int.tdiv n.emptyPos n.col ≤ n.col * (n.row - 2) :=
        mul_le_mul_of_nonneg_left h1 hc.le
      nlinarith

/-- A legal move is defined. -/
theorem Valid.move_isSome {n : NPuzzleNode} (hv : Valid n) {d : Direction}
    (hd : n.canMove d = true) : ∃ m, n.move d = some m :=
  ⟨_, move_of_inBounds n d (hv.inBounds hd)⟩

/-- The tiles after a move are a rearrangement of the tiles before. -/
theorem move_perm {n m : NPuzzleNode} {d : Direction} (h : n.move d = some m) :
    List.Perm m.val n.val := by
  obtain ⟨⟨h1, h2, h3, h4⟩, rfl⟩ := move_eq_some h
  exact swapAt_perm _ _ _ (by omega) (by omega)

/-- A move changes neither the dimensions nor the search bookkeeping. -/
theorem move_frame {n m : NPuzzleNode} {d : Direction} (h : n.move d = some m) :
    m.row = n.row ∧ m.col = n.col ∧ m.g = n.g ∧ m.h = n.h ∧ m.parent = n.parent ∧
      m.direc = n.direc ∧ m.emptyPos = n.emptyPos + n.displace d := by
  obtain ⟨_, rfl⟩ := move_eq_some h
  simp

/-- A defined move of a valid state gives a valid state. -/
theorem Valid.move_valid {n m : NPuzzleNode} (hv : Valid n) {d : Direction} (h : n.move d = some m) :
    Valid m := by
  have hp := move_perm h
  obtain ⟨⟨h1, h2, h3, h4⟩, rfl⟩ := move_eq_some h
  refine ⟨hv.row_ge, hv.col_ge, ?_, ?_, h3, ?_⟩
  · simpa [length_swapAt] using hv.size_eq
  · simpa [length_swapAt] using hp.trans hv.perm
  · show (swapAt n.val n.emptyPos.toNat (n.emptyPos + n.displace d).toNat)[
      (n.emptyPos + n.displace d).toNat]? = some 0
    rw [getElem?_swapAt _ _ _ _ (by omega) (by omega), if_pos rfl]
    exact hv.blank

/-- Legality of a move and its effect depend on the board only. -/
theorem SameTiles.canMove_eq {a b : NPuzzleNode} (h : SameTiles a b) (d : Direction) :
    a.canMove d = b.canMove d := by
  obtain ⟨h1, h2, h3, h4⟩ := h
  cases d <;> simp [canMove, getRow, getCol, h2, h3, h4]

theorem SameTiles.move_same {a b m : NPuzzleNode} (h : SameTiles a b) {d : Direction}
    (hm : a.move d = some m) : ∃ m1, b.move d = some m1 ∧ SameTiles m m1 := by
  obtain ⟨h1, h2, h3, h4⟩ := h
  obtain ⟨hb, rfl⟩ := move_eq_some hm
  have hd : a.displace d = b.displace d := by cases d <;> simp [displace, h4]
  refine ⟨_, move_of_inBounds b d ?_, ?_⟩
  · rw [← h1, ← h2, ← hd]; exact hb
  · simp [SameTiles, h1, h2, h3, h4, hd]

theorem SameTiles.refl (a : NPuzzleNode) : SameTiles a a := ⟨rfl, rfl, rfl, rfl⟩

theorem SameTiles.symm {a b : NPuzzleNode} (h : SameTiles a b) : SameTiles b a :=
  ⟨h.1.symm, h.2.1.symm, h.2.2.1.symm, h.2.2.2.symm⟩

theorem SameTiles.trans {a b c : NPuzzleNode} (h : SameTiles a b) (h1 : SameTiles b c) :
    SameTiles a c :=
  ⟨h.1.trans h1.1, h.2.1.trans h1.2.1, h.2.2.1.trans h1.2.2.1, h.2.2.2.trans h1.2.2.2⟩

/-- In a valid state the tiles determine the blank index. -/
theorem Valid.emptyPos_unique {a b : NPuzzleNode} (ha : Valid a) (hb : Valid b)
    (h : a.val = b.val) : a.emptyPos = b.emptyPos := by
  have hnd : a.val.Nodup := by
    refine (List.Perm.nodup_iff ha.perm).2 ?_
    exact List.Nodup.map (f := Int.ofNat) (fun x y hxy => Int.ofNat.inj hxy)
      (List.nodup_range _)
  have h1 := ha.blank
  have h2 := hb.blank
  rw [← h] at h2
  have hl1 : a.emptyPos.toNat < a.val.length := by have := ha.pos_lt; have := ha.pos_ge; omega
  have hl2 : b.emptyPos.toNat < a.val.length := by
    have h3 := hb.pos_lt; have := hb.pos_ge; rw [← h] at h3; omega
  rw [List.getElem?_eq_getElem hl1] at h1
  rw [List.getElem?_eq_getElem hl2] at h2
  have key : a.val[a.emptyPos.toNat] = a.val[b.emptyPos.toNat] :=
    (Option.some.inj h1).trans (Option.some.inj h2).symm
  have := (List.Nodup.getElem_inj_iff hnd).1 key
  have := ha.pos_ge
  have := hb.pos_ge
  omega


/-- The blank index after a legal move in one of the four directions, as row and
column: one column to the left or right in the same row, or one row up or down in
the same column. -/
theorem Valid.pos_after {n : NPuzzleNode} (hv : Valid n) {d : Direction}
    (hd : n.canMove d = true) :
    Int.tdiv (n.emptyPos + n.displace d) n.col =
        Int.tdiv n.emptyPos n.col +
          (match d with
            | Direction.UP => -1
            | Direction.DOWN => 1
            | _ => 0) ∧
      Int.tmod (n.emptyPos + n.displace d) n.col =
        Int.tmod n.emptyPos n.col +
          (match d with
            | Direction.LEFT => -1
            | Direction.RIGHT => 1
            | _ => 0) := by
  have hc : 0 < n.col := by have := hv.col_ge; omega
  obtain ⟨hdec, hr0, hrc, hq0⟩ := tdivmod_decomp hv.pos_ge hc
  generalize hq : Int.tdiv n.emptyPos n.col = q at *
  generalize hr : Int.tmod n.emptyPos n.col = r at *
  cases d <;> simp only [canMove, getRow, getCol, displace, bne_iff_ne, ne_eq, hq, hr] at hd ⊢
  · simp [hq, hr]
  · have h := tdivmod_unique (c := n.col) (q := q) (r := r - 1) hc hq0 (by omega) (by omega)
    have e : n.col * q + (r - 1) = n.emptyPos + -1 := by omega
    rw [e] at h
    simpa using h
  · have h := tdivmod_unique (c := n.col) (q := q - 1) (r := r) hc (by omega) hr0 hrc
    have e : n.col * (q - 1) + r = n.emptyPos + -n.col := by rw [hdec]; ring
    rw [e] at h
    simpa [sub_eq_add_neg] using h
  · have h := tdivmod_unique (c := n.col) (q := q) (r := r + 1) hc hq0 (by omega) (by omega)
    have e : n.col * q + (r + 1) = n.emptyPos + 1 := by omega
    rw [e] at h
    simpa using h
  · have h := tdivmod_unique (c := n.col) (q := q + 1) (r := r) hc (by omega) hr0 hrc
    have e : n.col * (q + 1) + r = n.emptyPos + n.col := by rw [hdec]; ring
    rw [e] at h
    simpa using h

/-- After a legal move the opposite move is legal and leads back to the same board. -/
theorem move_back {s m : NPuzzleNode} {d : Direction} (hv : s.Valid)
    (hc : s.canMove d = true) (hm : s.move d = some m) :
    m.canMove (opposite d) = true ∧ ∃ b, m.move (opposite d) = some b ∧ SameTiles b s := by
  have hvm := hv.move_valid hm
  obtain ⟨hrow, hcol, -, -, -, -, hpos⟩ := move_frame hm
  have hcp : 0 < s.col := by have := hv.col_ge; omega
  obtain ⟨hdec, hr0, hrc, hq0⟩ := tdivmod_decomp hv.pos_ge hcp
  have hrl := hv.row_lt
  obtain ⟨hq, hr⟩ := hv.pos_after hc
  have hopp : m.canMove (opposite d) = true := by
    cases d <;>
      simp only [opposite, canMove, getRow, getCol, bne_iff_ne, ne_eq, hpos, hcol, hrow,
        hq, hr] <;> omega
  have hdis : m.emptyPos + m.displace (opposite d) = s.emptyPos := by
    rw [hpos]
    cases d <;> simp [opposite, displace, hcol]
  obtain ⟨hb, hmeq⟩ := move_eq_some hm
  have hbm := hvm.inBounds hopp
  refine ⟨hopp, _, move_of_inBounds m (opposite d) hbm, ?_, hdis, hrow, hcol⟩
  show swapAt m.val m.emptyPos.toNat (m.emptyPos + m.displace (opposite d)).toNat = s.val
  rw [hdis, hpos]
  subst hmeq
  exact swapAt_swapAt _ _ _ (by omega) (by omega)

end NPuzzleNode


namespace NPuzzle

open NPuzzleNode

/-! ## The frontier, the explored set and one pass of the main loop -/

/-- Lookup in the explored set finds exactly the nodes whose tiles are stored: equal
tiles have equal hash values, whatever `cantorExpand` is. -/
theorem closeFind_iff (ce : Int → List Int → Int) (cl : List NPuzzleNode) (x : NPuzzleNode) :
    closeFind ce cl x = true ↔ ∃ e ∈ cl, e.val = x.val := by
  unfold closeFind
  rw [List.any_eq_true]
  constructor
  · rintro ⟨e, he, h⟩
    simp only [Bool.and_eq_true, eqv, decide_eq_true_eq] at h
    exact ⟨e, he, h.2⟩
  · rintro ⟨e, he, h⟩
    refine ⟨e, he, ?_⟩
    simp only [Bool.and_eq_true, eqv, decide_eq_true_eq, beq_iff_eq]
    exact ⟨by simp [NPuzzleNode.hash, getSize, h], h⟩

theorem closeFind_eq_false_iff (ce : Int → List Int → Int) (cl : List NPuzzleNode)
    (x : NPuzzleNode) : closeFind ce cl x = false ↔ ∀ e ∈ cl, e.val ≠ x.val := by
  rw [← Bool.not_eq_true, closeFind_iff]
  push_neg
  rfl

theorem exists_minF (q : List NPuzzleNode) (h : q ≠ []) :
    ∃ x ∈ q, ∀ y ∈ q, x.getF ≤ y.getF := by
  induction q with
  | nil => exact absurd rfl h
  | cons a q ih =>
    by_cases hq : q = []
    · subst hq
      exact ⟨a, by simp, by simp⟩
    · obtain ⟨x, hx, hmin⟩ := ih hq
      by_cases hax : a.getF ≤ x.getF
      · refine ⟨a, by simp, ?_⟩
        intro y hy
        rcases List.mem_cons.1 hy with rfl | hy
        · exact le_refl _
        · exact le_trans hax (hmin y hy)
      · refine ⟨x, List.mem_cons_of_mem _ hx, ?_⟩
        intro y hy
        rcases List.mem_cons.1 hy with rfl | hy
        · omega
        · exact hmin y hy

/-- What `top(); pop()` returns is an entry of the queue, and the queue loses that
entry. -/
theorem openPop_spec {tie : Nat → Nat} {k : Nat} {q q1 : List NPuzzleNode} {x : NPuzzleNode}
    (h : openPop tie k q = some (x, q1)) :
    ∃ i, q[i]? = some x ∧ q1 = q.eraseIdx i ∧ ∀ y ∈ q, ¬ x.getF > y.getF := by
  unfold openPop at h
  simp only at h
  split at h
  · cases h
  · rename_i c hc
    simp only [Option.some.injEq, Prod.mk.injEq] at h
    have hmem : c ∈ topCandidates q := List.getElem?_mem (by simpa using hc)
    unfold topCandidates at hmem
    rw [List.mem_filter] at hmem
    obtain ⟨h1, h2⟩ := hmem
    rw [List.mem_enum_iff_getElem?] at h1
    refine ⟨c.1, by rw [h1, h.1], h.2.symm, ?_⟩
    intro y hy
    rw [List.all_eq_true] at h2
    have := h2 y hy
    simpa [NPuzzleNode.gt, h.1] using this

theorem openPop_isSome (tie : Nat → Nat) (k : Nat) {q : List NPuzzleNode} (hq : q ≠ []) :
    ∃ r, openPop tie k q = some r := by
  obtain ⟨x, hx, hmin⟩ := exists_minF q hq
  obtain ⟨i, hi⟩ := List.mem_iff_getElem?.1 hx
  have hmem : (i, x) ∈ topCandidates q := by
    unfold topCandidates
    rw [List.mem_filter]
    refine ⟨by rw [List.mem_enum_iff_getElem?]; exact hi, ?_⟩
    rw [List.all_eq_true]
    intro y hy
    have := hmin y hy
    simp only [NPuzzleNode.gt, gt_iff_lt, Bool.not_eq_true', decide_eq_false_iff_not, not_lt]
    exact this
  have hlen : 0 < (topCandidates q).length := List.length_pos_of_mem hmem
  have hlt : tie k % (topCandidates q).length < (topCandidates q).length := Nat.mod_lt _ hlen
  unfold openPop
  simp only
  have : (topCandidates q).get? (tie k % (topCandidates q).length) =
      some ((topCandidates q).get ⟨_, hlt⟩) := List.get?_eq_get hlt
  rw [this]
  exact ⟨_, rfl⟩

theorem openPop_length {tie : Nat → Nat} {k : Nat} {q q1 : List NPuzzleNode} {x : NPuzzleNode}
    (h : openPop tie k q = some (x, q1)) : q1.length + 1 = q.length := by
  obtain ⟨i, hi, rfl, -⟩ := openPop_spec h
  have hlt : i < q.length := by
    by_contra hc
    rw [List.getElem?_eq_none (by omega)] at hi
    cases hi
  rw [List.length_eraseIdx, if_pos hlt]
  omega

theorem openPop_mem {tie : Nat → Nat} {k : Nat} {q q1 : List NPuzzleNode} {x : NPuzzleNode}
    (h : openPop tie k q = some (x, q1)) :
    x ∈ q ∧ (∀ y ∈ q1, y ∈ q) ∧ ∀ y ∈ q, y = x ∨ y ∈ q1 := by
  obtain ⟨i, hi, rfl, -⟩ := openPop_spec h
  refine ⟨List.getElem?_mem hi, fun y hy => (List.eraseIdx_sublist q i).subset hy, ?_⟩
  intro y hy
  obtain ⟨j, hj⟩ := List.mem_iff_getElem?.1 hy
  by_cases hji : j = i
  · left
    subst hji
    rw [hi] at hj
    exact (Option.some.inj hj).symm
  · right
    rw [List.mem_eraseIdx_iff_getElem?]
    exact ⟨j, hji, hj⟩

/-- The inner loop ends with a node of the queue; what it dropped was explored
already; and it stops on an unexplored node unless the queue ran empty. -/
theorem popLoop_spec {ce : Int → List Int → Int} {tie : Nat → Nat} {cl : List NPuzzleNode}
    {n k : Nat} {q q1 : List NPuzzleNode} {cur : NPuzzleNode} {k1 : Nat}
    (h : popLoop ce tie cl n k q = some (cur, q1, k1)) :
    cur ∈ q ∧ (∀ x ∈ q1, x ∈ q) ∧ (∀ x ∈ q, x = cur ∨ x ∈ q1 ∨ closeFind ce cl x = true) ∧
      (q1 = [] ∨ closeFind ce cl cur = false) := by
  induction n generalizing k q with
  | zero => simp [popLoop] at h
  | succ n ih =>
    rw [popLoop] at h
    split at h
    · cases h
    · rename_i c q2 hpop
      obtain ⟨hm1, hm2, hm3⟩ := openPop_mem hpop
      split_ifs at h with hcond
      · obtain ⟨i1, i2, i3, i4⟩ := ih h
        simp only [Bool.and_eq_true, Bool.not_eq_true', List.isEmpty_eq_false] at hcond
        refine ⟨hm2 _ i1, fun x hx => hm2 _ (i2 x hx), ?_, i4⟩
        intro x hx
        rcases hm3 x hx with rfl | hx2
        · right; right; exact hcond.2
        · exact i3 x hx2
      · simp only [Option.some.injEq, Prod.mk.injEq] at h
        obtain ⟨rfl, rfl, rfl⟩ := h
        refine ⟨hm1, hm2, fun x hx => ?_, ?_⟩
        · rcases hm3 x hx with rfl | hx2
          · left; rfl
          · right; left; exact hx2
        · simp only [Bool.and_eq_true, Bool.not_eq_true', not_and, Bool.not_eq_true] at hcond
          by_cases he : q2 = []
          · left; exact he
          · right
            apply hcond
            cases q2 with
            | nil => exact absurd rfl he
            | cons a t => rfl

theorem popLoop_isSome (ce : Int → List Int → Int) (tie : Nat → Nat) (cl : List NPuzzleNode)
    (n k : Nat) (q : List NPuzzleNode) (hq : q ≠ []) (hn : q.length ≤ n) :
    ∃ r, popLoop ce tie cl n k q = some r := by
  induction n generalizing k q with
  | zero =>
    cases q with
    | nil => exact absurd rfl hq
    | cons a t => simp at hn
  | succ n ih =>
    obtain ⟨⟨c, q2⟩, hpop⟩ := openPop_isSome tie k hq
    have hlen := openPop_length hpop
    rw [popLoop, hpop]
    simp only
    split_ifs with hcond
    · simp only [Bool.and_eq_true, Bool.not_eq_true', List.isEmpty_eq_false] at hcond
      refine ih (k + 1) q2 ?_ (by omega)
      intro he
      rw [he] at hcond
      simp at hcond
    · exact ⟨_, rfl⟩


theorem expandDir_spec {ce : Int → List Int → Int} {des cur : NPuzzleNode}
    {cl q q2 : List NPuzzleNode} {d : Direction}
    (h : expandDir ce des cur cl q d = some q2) :
    (∀ x ∈ q, x ∈ q2) ∧ (∀ x ∈ q2, x ∈ q ∨ IsChild cur d x) ∧
      (cur.canMove d = true → ∀ m, cur.move d = some m →
        closeFind ce cl m = true ∨ ∃ x ∈ q2, x.val = m.val) := by
  unfold expandDir at h
  split_ifs at h with hc
  · unfold getAdjNode at h
    split at h
    · cases h
    · rename_i adj hadj
      split_ifs at h with hf
      · simp only [Option.some.injEq] at h
        subst h
        refine ⟨fun x hx => hx, fun x hx => Or.inl hx, ?_⟩
        intro _ m hm
        rw [hadj] at hm
        cases hm
        exact Or.inl hf
      · simp only at h
        split at h
        · cases h
        · rename_i h1 hh
          simp only [Option.some.injEq] at h
          subst h
          refine ⟨fun x hx => List.mem_append_left _ hx, ?_, ?_⟩
          · intro x hx
            rcases List.mem_append.1 hx with hx | hx
            · exact Or.inl hx
            · right
              simp only [List.mem_singleton] at hx
              subst hx
              exact ⟨rfl, rfl, rfl, hc, adj, hadj, rfl, rfl, rfl, rfl⟩
          · intro _ m hm
            rw [hadj] at hm
            cases hm
            right
            exact ⟨_, List.mem_append_right _ (List.mem_singleton_self _), rfl⟩
  · simp only [Option.some.injEq] at h
    subst h
    refine ⟨fun x hx => hx, fun x hx => Or.inl hx, ?_⟩
    intro hc1
    exact absurd hc1 hc

theorem expandDir_isSome (ce : Int → List Int → Int) (des cur : NPuzzleNode)
    (cl q : List NPuzzleNode) (d : Direction)
    (hm : cur.canMove d = true → ∃ m, cur.move d = some m)
    (hl : cur.val.length ≤ des.val.length) :
    ∃ q2, expandDir ce des cur cl q d = some q2 := by
  unfold expandDir
  split_ifs with hc
  · obtain ⟨m, hmv⟩ := hm hc
    unfold getAdjNode
    rw [hmv]
    simp only
    split_ifs with hf
    · exact ⟨_, rfl⟩
    · have hlen : m.val.length = cur.val.length := (move_perm hmv).length_eq
      unfold estimateH
      simp only
      rw [if_pos (by omega)]
      exact ⟨_, rfl⟩
  · exact ⟨_, rfl⟩

theorem foldlM_expandDir_spec {ce : Int → List Int → Int} {des cur : NPuzzleNode}
    {cl : List NPuzzleNode} (ds : List Direction) {q q2 : List NPuzzleNode}
    (h : ds.foldlM (fun q d => expandDir ce des cur cl q d) q = some q2) :
    (∀ x ∈ q, x ∈ q2) ∧ (∀ x ∈ q2, x ∈ q ∨ ∃ d ∈ ds, IsChild cur d x) ∧
      (∀ d ∈ ds, cur.canMove d = true → ∀ m, cur.move d = some m →
        closeFind ce cl m = true ∨ ∃ x ∈ q2, x.val = m.val) := by
  induction ds generalizing q with
  | nil =>
    simp only [List.foldlM_nil, Option.pure_def, Option.some.injEq] at h
    subst h
    exact ⟨fun x hx => hx, fun x hx => Or.inl hx, by simp⟩
  | cons d ds ih =>
    simp only [List.foldlM_cons, Option.bind_eq_bind, Option.bind_eq_some] at h
    obtain ⟨q1, h1, h2⟩ := h
    obtain ⟨a1, a2, a3⟩ := expandDir_spec h1
    obtain ⟨b1, b2, b3⟩ := ih h2
    refine ⟨fun x hx => b1 x (a1 x hx), ?_, ?_⟩
    · intro x hx
      rcases b2 x hx with hx1 | ⟨d1, hd1, hch⟩
      · rcases a2 x hx1 with hx2 | hch
        · exact Or.inl hx2
        · exact Or.inr ⟨d, by simp, hch⟩
      · exact Or.inr ⟨d1, List.mem_cons_of_mem _ hd1, hch⟩
    · intro d1 hd1 hc m hm
      rcases List.mem_cons.1 hd1 with rfl | hd1
      · rcases a3 hc m hm with hf | ⟨x, hx, hxv⟩
        · exact Or.inl hf
        · exact Or.inr ⟨x, b1 x hx, hxv⟩
      · exact b3 d1 hd1 hc m hm

theorem foldlM_expandDir_isSome (ce : Int → List Int → Int) (des cur : NPuzzleNode)
    (cl : List NPuzzleNode) (ds : List Direction) (q : List NPuzzleNode)
    (hm : ∀ d, cur.canMove d = true → ∃ m, cur.move d = some m)
    (hl : cur.val.length ≤ des.val.length) :
    ∃ q2, ds.foldlM (fun q d => expandDir ce des cur cl q d) q = some q2 := by
  induction ds generalizing q with
  | nil => exact ⟨q, rfl⟩
  | cons d ds ih =>
    obtain ⟨q1, h1⟩ := expandDir_isSome ce des cur cl q d (hm d) hl
    obtain ⟨q2, h2⟩ := ih q1
    refine ⟨q2, ?_⟩
    simp only [List.foldlM_cons, Option.bind_eq_bind, h1, Option.some_bind, h2]

/-- The three ways a pass of the main loop can end. -/
theorem pass_cases {ce : Int → List Int → Int} {tie : Nat → Nat} {p : NPuzzle} {k : Nat}
    {r : Pass} (h : pass ce tie p k = some r) :
    ∃ cur q1 k1, popLoop ce tie p.closeList p.openList.length k p.openList = some (cur, q1, k1) ∧
      ((q1 = [] ∧ closeFind ce p.closeList cur = true ∧
          r = Pass.exhausted { p with openList := q1 }) ∨
        (closeFind ce p.closeList cur = false ∧ cur.eqv p.des = true ∧
          r = Pass.found (constructPath
            { p with openList := q1, closeList := p.closeList ++ [cur], des := cur })) ∨
        (closeFind ce p.closeList cur = false ∧ cur.eqv p.des = false ∧
          ∃ q2, expand ce p.des cur (p.closeList ++ [cur]) q1 = some q2 ∧
            r = Pass.next { p with openList := q2, closeList := p.closeList ++ [cur] } k1)) := by
  unfold pass at h
  split at h
  · cases h
  · rename_i cur q1 k1 hpop
    refine ⟨cur, q1, k1, hpop, ?_⟩
    obtain ⟨-, -, -, h4⟩ := popLoop_spec hpop
    split_ifs at h with hex heq
    · left
      simp only [Bool.and_eq_true, List.isEmpty_iff] at hex
      simp only [Option.some.injEq] at h
      exact ⟨hex.1, hex.2, h.symm⟩
    · have hnf : closeFind ce p.closeList cur = false := by
        rcases h4 with h4 | h4
        · simp only [Bool.and_eq_true, List.isEmpty_iff, not_and, Bool.not_eq_true] at hex
          exact hex h4
        · exact h4
      right; left
      simp only [closeInsert, hnf, Bool.false_eq_true, if_false, Option.some.injEq] at h
      exact ⟨hnf, heq, h.symm⟩
    · have hnf : closeFind ce p.closeList cur = false := by
        rcases h4 with h4 | h4
        · simp only [Bool.and_eq_true, List.isEmpty_iff, not_and, Bool.not_eq_true] at hex
          exact hex h4
        · exact h4
      right; right
      simp only [closeInsert, hnf, Bool.false_eq_true, if_false] at h
      split at h
      · cases h
      · rename_i q2 hq2
        simp only [Option.some.injEq] at h
        exact ⟨hnf, by simpa using heq, q2, hq2, h.symm⟩


/-! ## Parent chains and the reconstructed path -/

theorem walkParents_none (x : NPuzzleNode) (pn : List NPuzzleNode) (pd : List Direction)
    (h : x.parent = none) : walkParents x pn pd = (x :: pn, pd) := by
  cases x
  simp only at h
  subst h
  rw [walkParents]

theorem walkParents_some (x p : NPuzzleNode) (pn : List NPuzzleNode) (pd : List Direction)
    (h : x.parent = some p) : walkParents x pn pd = walkParents p (x :: pn) (x.direc :: pd) := by
  cases x
  simp only at h
  subst h
  rw [walkParents]

theorem legalReplay_append (s : NPuzzleNode) (ds : List Direction) (d : Direction) :
    legalReplay s (ds ++ [d]) =
      (legalReplay s ds).bind (fun m => if m.canMove d = true then m.move d else none) := by
  induction ds generalizing s with
  | nil =>
    simp only [List.nil_append, legalReplay, Option.some_bind]
    split_ifs
    · cases s.move d <;> rfl
    · rfl
  | cons a ds ih =>
    simp only [List.cons_append, legalReplay]
    split_ifs
    · cases h : s.move a with
      | none => rfl
      | some s1 => exact ih s1
    · rfl

theorem replay_of_legalReplay {s fin : NPuzzleNode} {ds : List Direction}
    (h : legalReplay s ds = some fin) : replay s ds = some fin := by
  induction ds generalizing s with
  | nil => simpa [legalReplay, replay] using h
  | cons a ds ih =>
    simp only [legalReplay] at h
    split_ifs at h
    simp only [replay]
    cases hm : s.move a with
    | none => rw [hm] at h; cases h
    | some s1 =>
      rw [hm] at h
      exact ih h

namespace Trace

theorem perm_start {start x : NPuzzleNode} {ds : List Direction}
    {ns : List NPuzzleNode} (t : Trace start x ds ns) : List.Perm x.val start.val := by
  induction t with
  | root x hp ht hg => rw [ht.1]
  | step x p m ds ns hp tp hc hm ht hg ih =>
    rw [← ht.1]
    exact (move_perm hm).trans ih

theorem valid_of {start x : NPuzzleNode} {ds : List Direction}
    {ns : List NPuzzleNode} (t : Trace start x ds ns) (hv : start.Valid) : x.Valid := by
  induction t with
  | root x hp ht hg => exact hv.of_sameTiles ht.symm
  | step x p m ds ns hp tp hc hm ht hg ih => exact (ih.move_valid hm).of_sameTiles ht

theorem legal_replay {start x : NPuzzleNode} {ds : List Direction}
    {ns : List NPuzzleNode} (t : Trace start x ds ns) :
    ∃ fin, legalReplay start ds = some fin ∧ SameTiles fin x := by
  induction t with
  | root x hp ht hg => exact ⟨start, rfl, ht.symm⟩
  | step x p m ds ns hp tp hc hm ht hg ih =>
    obtain ⟨fin, hf, hs⟩ := ih
    obtain ⟨m1, hm1, hs1⟩ := hs.symm.move_same hm
    refine ⟨m1, ?_, hs1.symm.trans ht⟩
    rw [legalReplay_append, hf, Option.some_bind, if_pos (by rw [hs.canMove_eq]; exact hc)]
    exact hm1

theorem walk_eq {start x : NPuzzleNode} {ds : List Direction}
    {ns : List NPuzzleNode} (t : Trace start x ds ns) (hs : start.parent = none) (pn : List NPuzzleNode)
    (pd : List Direction) : walkParents x pn pd = (ns ++ pn, ds ++ pd) := by
  induction t generalizing pn pd with
  | root x hp ht hg => rw [walkParents_none x pn pd (hp.trans hs)]; rfl
  | step x p m ds ns hp tp hc hm ht hg ih =>
    rw [walkParents_some x p pn pd hp, ih]
    simp

theorem length_eq {start x : NPuzzleNode} {ds : List Direction}
    {ns : List NPuzzleNode} (t : Trace start x ds ns) : ns.length = ds.length + 1 := by
  induction t with
  | root x hp ht hg => rfl
  | step x p m ds ns hp tp hc hm ht hg ih => simp [ih]

theorem getLast_eq {start x : NPuzzleNode} {ds : List Direction}
    {ns : List NPuzzleNode} (t : Trace start x ds ns) : ns.getLast? = some x := by
  cases t <;> simp

theorem head_same {start x : NPuzzleNode} {ds : List Direction}
    {ns : List NPuzzleNode} (t : Trace start x ds ns) : ∃ r, ns.head? = some r ∧ SameTiles r start := by
  induction t with
  | root x hp ht hg => exact ⟨x, rfl, ht⟩
  | step x p m ds ns hp tp hc hm ht hg ih =>
    obtain ⟨r, hr, hs⟩ := ih
    refine ⟨r, ?_, hs⟩
    cases ns with
    | nil => cases hr
    | cons a t => simpa using hr

theorem g_eq {start x : NPuzzleNode} {ds : List Direction}
    {ns : List NPuzzleNode} (t : Trace start x ds ns) : x.g = ds.length := by
  induction t with
  | root x hp ht hg => simpa using hg
  | step x p m ds ns hp tp hc hm ht hg ih => rw [hg, ih]; simp

/-- Consecutive states of the chain are linked by the moves of the chain. -/
theorem links {start x : NPuzzleNode} {ds : List Direction}
    {ns : List NPuzzleNode} (t : Trace start x ds ns) :
    ∀ i a b d, ns[i]? = some a → ns[i + 1]? = some b → ds[i]? = some d →
      a.canMove d = true ∧ ∃ m, a.getAdjNode d = some m ∧ SameTiles m b := by
  induction t with
  | root x hp ht hg =>
    intro i a b d _ _ h
    simp at h
  | step x p m ds ns hp tp hc hm ht hg ih =>
    intro i a b d ha hb hd
    have hlen := tp.length_eq
    by_cases hi : i + 1 < ns.length
    · rw [List.getElem?_append_left (by omega)] at ha
      rw [List.getElem?_append_left hi] at hb
      rw [List.getElem?_append_left (by omega)] at hd
      exact ih i a b d ha hb hd
    · have hi2 : i < ds.length + 1 := by
        by_contra hcon
        rw [List.getElem?_eq_none (by simp; omega)] at hd
        cases hd
      have hie : i = ds.length := by omega
      subst hie
      have hlast := tp.getLast_eq
      rw [List.getElem?_append_left (by omega)] at ha
      rw [List.getLast?_eq_getElem?, hlen] at hlast
      simp only [add_tsub_cancel_right] at hlast
      rw [hlast] at ha
      cases ha
      rw [← hlen, List.getElem?_append_right (le_refl _)] at hb
      simp only [Nat.sub_self, List.getElem?_cons_zero, Option.some.injEq] at hb
      subst hb
      rw [List.getElem?_append_right (le_refl _)] at hd
      simp only [Nat.sub_self, List.getElem?_cons_zero, Option.some.injEq] at hd
      subst hd
      exact ⟨hc, m, hm, ht⟩

theorem of_child {start x : NPuzzleNode} {ds : List Direction}
    {ns : List NPuzzleNode} (t : Trace start x ds ns) {d : Direction} {y : NPuzzleNode}
    (h : IsChild x d y) : Trace start y (ds ++ [d]) (ns ++ [y]) := by
  obtain ⟨h1, h2, h3, h4, adj, h5, h6⟩ := h
  subst h2
  exact Trace.step y x adj ds ns h1 t h4 h5 h6 h3

end Trace


theorem Trace.dims {start x : NPuzzleNode} {ds : List Direction} {ns : List NPuzzleNode}
    (t : Trace start x ds ns) : x.row = start.row ∧ x.col = start.col := by
  induction t with
  | root x hp ht hg => exact ⟨ht.2.2.1, ht.2.2.2⟩
  | step x p m ds ns hp tp hc hm ht hg ih =>
    obtain ⟨h1, h2, -⟩ := move_frame hm
    exact ⟨by rw [← ht.2.2.1, h1, ih.1], by rw [← ht.2.2.2, h2, ih.2]⟩

theorem Trace.depth_eq {start x : NPuzzleNode} {ds : List Direction} {ns : List NPuzzleNode}
    (t : Trace start x ds ns) (hs : start.parent = none) : depth x = ds.length := by
  induction t with
  | root x hp ht hg =>
    have h := hp.trans hs
    cases x
    simp only at h
    subst h
    rw [depth]
    rfl
  | step x p m ds ns hp tp hc hm ht hg ih =>
    cases x
    simp only at hp
    subst hp
    rw [depth, ih]
    simp

theorem constructPath_none (p : NPuzzle) (h : p.des.parent = none) :
    constructPath p = { p with pathDirec := [] } := by
  unfold constructPath
  split
  · rfl
  · rename_i par hpar
    rw [h] at hpar
    cases hpar

theorem constructPath_some (p : NPuzzle) (par : NPuzzleNode) (h : p.des.parent = some par) :
    constructPath p =
      { p with pathNode := (walkParents par (p.des :: p.pathNode) [p.des.direc]).1,
               pathDirec := (walkParents par (p.des :: p.pathNode) [p.des.direc]).2 } := by
  unfold constructPath
  split
  · rename_i hpar
    rw [h] at hpar
    cases hpar
  · rename_i par1 hpar
    rw [h] at hpar
    cases hpar
    rfl

/-- What `constructPath` leaves in the two path lists when `des` is a node whose
parent chain starts at a node without parent. -/
theorem constructPath_spec {start cur : NPuzzleNode} {ds : List Direction}
    {ns : List NPuzzleNode} (t : Trace start cur ds ns) (hs : start.parent = none)
    (p : NPuzzle) (hdes : p.des = cur) (hpn : p.pathNode = []) :
    (constructPath p).pathDirec = ds ∧
      (cur.parent = none → (constructPath p).pathNode = []) ∧
      (cur.parent ≠ none → (constructPath p).pathNode = ns) ∧
      (constructPath p).des = cur ∧ (constructPath p).closeList = p.closeList ∧
      (constructPath p).openList = p.openList := by
  cases t with
  | root _ hp ht hg =>
    have h := hp.trans hs
    have hd : p.des.parent = none := by rw [hdes]; exact h
    rw [constructPath_none p hd]
    exact ⟨rfl, fun _ => hpn, fun hc => absurd h hc, hdes, rfl, rfl⟩
  | step _ par m ds1 ns1 hp tp hc hm ht hg =>
    have hd : p.des.parent = some par := by rw [hdes]; exact hp
    rw [constructPath_some p par hd, tp.walk_eq hs, hpn, hdes]
    refine ⟨rfl, fun hc => ?_, fun _ => by simp, rfl, rfl, rfl⟩
    rw [hp] at hc
    cases hc

/-! ## The invariant of the main loop -/

theorem constructPath_des (p : NPuzzle) : (constructPath p).des = p.des := by
  unfold constructPath
  split <;> rfl

theorem constructPath_closeList (p : NPuzzle) : (constructPath p).closeList = p.closeList := by
  unfold constructPath
  split <;> rfl

theorem Inv.at_enter (start goal : NPuzzleNode) : Inv start goal (enter (new start goal)) := by
  refine ⟨rfl, rfl, rfl, ?_, ?_, ?_, ?_, ?_⟩
  · intro x hx
    simp only [NPuzzle.enter, new, List.nil_append, List.mem_singleton, List.not_mem_nil,
      or_false] at hx
    rw [hx]
    exact ⟨[], _, Trace.root { start with g := 0 } rfl ⟨rfl, rfl, rfl, rfl⟩ rfl⟩
  · simp [NPuzzle.enter, new]
  · simp [NPuzzle.enter, new]
  · simp [NPuzzle.enter, new]
  · right
    exact ⟨{ start with g := 0 }, by simp [NPuzzle.enter, new], rfl⟩

/-- A list of nodes with pairwise different tiles, all rearrangements of the tiles of
`start`, has at most `n!` elements. -/
theorem length_le_factorial {start : NPuzzleNode} (cl : List NPuzzleNode)
    (hp : ∀ x ∈ cl, List.Perm x.val start.val) (hn : (cl.map (fun x => x.val)).Nodup) :
    cl.length ≤ (start.val.length).factorial := by
  have hsub : cl.map (fun x => x.val) ⊆ start.val.permutations := by
    intro v hv
    rw [List.mem_map] at hv
    obtain ⟨x, hx, rfl⟩ := hv
    exact List.mem_permutations.2 (hp x hx)
  have h := (hn.subperm hsub).length_le
  rwa [List.length_map, List.length_permutations] at h

/-- Every explored node has the tiles of the start rearranged, and no two explored
nodes have the same tiles: at most `n!` nodes are explored. -/
theorem Inv.closeList_le {start goal : NPuzzleNode} {p : NPuzzle} (hi : Inv start goal p) :
    p.closeList.length ≤ (start.val.length).factorial := by
  refine length_le_factorial p.closeList ?_ hi.nodup
  intro x hx
  obtain ⟨ds, ns, t⟩ := hi.trace x (Or.inr hx)
  exact t.perm_start

/-- The invariant across one pass of the main loop. -/
theorem Inv.pass_inv {ce : Int → List Int → Int} {tie : Nat → Nat} {start goal : NPuzzleNode}
    {p : NPuzzle} {k : Nat} {r : Pass} (hi : Inv start goal p)
    (h : pass ce tie p k = some r) :
    match r with
    | Pass.exhausted p1 => Inv start goal p1 ∧ p1.openList = []
    | Pass.found p1 => Found start goal p1
    | Pass.next p1 _ => Inv start goal p1 ∧ p1.closeList.length = p.closeList.length + 1 := by
  obtain ⟨cur, q1, k1, hpop, hcase⟩ := pass_cases h
  obtain ⟨hcur, hq1, hq, -⟩ := popLoop_spec hpop
  have carry : ∀ (q2 : List NPuzzleNode) (v : List Int), (∀ x ∈ q1, x ∈ q2) →
      ((∃ x ∈ p.closeList, x.val = v) ∨ (∃ x ∈ p.openList, x.val = v)) →
      (∃ x ∈ p.closeList ++ [cur], x.val = v) ∨ (∃ x ∈ q2, x.val = v) := by
    intro q2 v hsub hv
    rcases hv with ⟨x, hx, hxv⟩ | ⟨x, hx, hxv⟩
    · exact Or.inl ⟨x, List.mem_append_left _ hx, hxv⟩
    · rcases hq x hx with rfl | hx1 | hf
      · exact Or.inl ⟨x, by simp, hxv⟩
      · exact Or.inr ⟨x, hsub x hx1, hxv⟩
      · obtain ⟨e, he, hev⟩ := (closeFind_iff ce _ _).1 hf
        exact Or.inl ⟨e, List.mem_append_left _ he, hev.trans hxv⟩
  rcases hcase with ⟨hq1e, hf, rfl⟩ | ⟨hnf, heq, rfl⟩ | ⟨hnf, hne, q2, hexp, rfl⟩
  · -- every entry was explored already
    subst hq1e
    have back : ∀ v : List Int,
        ((∃ x ∈ p.closeList, x.val = v) ∨ (∃ x ∈ p.openList, x.val = v)) →
        (∃ x ∈ p.closeList, x.val = v) := by
      intro v hv
      rcases hv with hv | ⟨x, hx, hxv⟩
      · exact hv
      · rcases hq x hx with rfl | hx1 | hf1
        · obtain ⟨e, he, hev⟩ := (closeFind_iff ce _ _).1 hf
          exact ⟨e, he, hev.trans hxv⟩
        · cases hx1
        · obtain ⟨e, he, hev⟩ := (closeFind_iff ce _ _).1 hf1
          exact ⟨e, he, hev.trans hxv⟩
    refine ⟨⟨hi.des_eq, hi.pathD, hi.pathN, ?_, hi.nodup, hi.notGoal, ?_, ?_⟩, rfl⟩
    · intro x hx
      rcases hx with hx | hx
      · cases hx
      · exact hi.trace x (Or.inr hx)
    · intro c hc d hd hcm m hm
      exact Or.inl (back _ (hi.closed c hc d hd hcm m hm))
    · exact Or.inl (back _ hi.startIn)
  · -- the goal is accepted
    obtain ⟨ds, ns, t⟩ := hi.trace cur (Or.inl hcur)
    have hval : cur.val = goal.val := by
      rw [← hi.des_eq]
      simpa [eqv] using heq
    refine ⟨cur, ds, ns, t, hval, ?_, ?_, ?_, ?_⟩
    · rw [constructPath_des]
    · rw [constructPath_closeList]
      simp
    · rw [constructPath_closeList]
      refine length_le_factorial (p.closeList ++ [cur]) ?_ ?_
      · intro x hx
        rcases List.mem_append.1 hx with hx | hx
        · obtain ⟨ds1, ns1, t1⟩ := hi.trace x (Or.inr hx)
          exact t1.perm_start
        · simp only [List.mem_singleton] at hx
          subst hx
          exact t.perm_start
      · rw [List.map_append, List.nodup_append]
        refine ⟨hi.nodup, by simp, ?_⟩
        intro v hv hv1
        simp only [List.map_cons, List.map_nil, List.mem_singleton] at hv1
        subst hv1
        rw [List.mem_map] at hv
        obtain ⟨e, he, hev⟩ := hv
        exact (closeFind_eq_false_iff ce _ _).1 hnf e he hev
    · intro hs
      obtain ⟨h1, h2, h3, -⟩ := constructPath_spec t hs
        { p with openList := q1, closeList := p.closeList ++ [cur], des := cur } rfl hi.pathN
      exact ⟨h1, h2, h3⟩
  · -- the node is expanded
    obtain ⟨ds, ns, t⟩ := hi.trace cur (Or.inl hcur)
    obtain ⟨e1, e2, e3⟩ := foldlM_expandDir_spec directions hexp
    have hval : cur.val ≠ goal.val := by
      rw [← hi.des_eq]
      simpa [eqv] using hne
    refine ⟨⟨hi.des_eq, hi.pathD, hi.pathN, ?_, ?_, ?_, ?_, ?_⟩, by simp⟩
    · intro x hx
      rcases hx with hx | hx
      · rcases e2 x hx with hx1 | ⟨d, -, hch⟩
        · exact hi.trace x (Or.inl (hq1 x hx1))
        · exact ⟨_, _, t.of_child hch⟩
      · rcases List.mem_append.1 hx with hx | hx
        · exact hi.trace x (Or.inr hx)
        · simp only [List.mem_singleton] at hx
          subst hx
          exact ⟨ds, ns, t⟩
    · show ((p.closeList ++ [cur]).map (fun x => x.val)).Nodup
      rw [List.map_append, List.nodup_append]
      refine ⟨hi.nodup, by simp, ?_⟩
      intro v hv hv1
      simp only [List.map_cons, List.map_nil, List.mem_singleton] at hv1
      subst hv1
      rw [List.mem_map] at hv
      obtain ⟨e, he, hev⟩ := hv
      exact (closeFind_eq_false_iff ce _ _).1 hnf e he hev
    · intro x hx
      rcases List.mem_append.1 hx with hx | hx
      · exact hi.notGoal x hx
      · simp only [List.mem_singleton] at hx
        subst hx
        exact hval
    · intro c hc d hd hcm m hm
      rcases List.mem_append.1 hc with hc | hc
      · exact carry q2 _ e1 (hi.closed c hc d hd hcm m hm)
      · simp only [List.mem_singleton] at hc
        subst hc
        rcases e3 d hd hcm m hm with hf | hx
        · exact Or.inl ((closeFind_iff ce _ _).1 hf)
        · exact Or.inr hx
    · exact carry q2 _ e1 hi.startIn


/-! ## Termination and the result of the main loop -/

/-- On a non-empty frontier a pass of the main loop is defined, when the start is
valid and the goal has room for its tiles. -/
theorem pass_isSome (ce : Int → List Int → Int) (tie : Nat → Nat) {start goal : NPuzzleNode}
    {p : NPuzzle} (k : Nat) (hi : Inv start goal p) (hv : start.Valid)
    (hl : start.val.length ≤ goal.val.length) (hq : p.openList ≠ []) :
    ∃ r, pass ce tie p k = some r := by
  obtain ⟨⟨cur, q1, k1⟩, hpop⟩ :=
    popLoop_isSome ce tie p.closeList p.openList.length k p.openList hq (le_refl _)
  obtain ⟨hcur, -, -, -⟩ := popLoop_spec hpop
  obtain ⟨ds, ns, t⟩ := hi.trace cur (Or.inl hcur)
  have hvc := t.valid_of hv
  have hlen : cur.val.length ≤ p.des.val.length := by
    rw [hi.des_eq, t.perm_start.length_eq]
    exact hl
  obtain ⟨q2, h2⟩ := foldlM_expandDir_isSome ce p.des cur (closeInsert ce p.closeList cur)
    directions q1 (fun d hd => hvc.move_isSome hd) hlen
  unfold pass
  rw [hpop]
  simp only
  split_ifs
  · exact ⟨_, rfl⟩
  · exact ⟨_, rfl⟩
  · unfold expand
    rw [h2]
    exact ⟨_, rfl⟩

theorem loop_succ {ce : Int → List Int → Int} {tie : Nat → Nat} {fuel : Nat} {p : NPuzzle}
    {k : Nat} {r : Bool × NPuzzle} (h : loop ce tie fuel p k = some r) :
    loop ce tie (fuel + 1) p k = some r := by
  induction fuel generalizing p k with
  | zero => simp [loop] at h
  | succ n ih =>
    rw [loop] at h ⊢
    split_ifs at h ⊢ with he
    · exact h
    · cases hp : pass ce tie p k with
      | none => rw [hp] at h; cases h
      | some res =>
        rw [hp] at h
        cases res with
        | exhausted p1 => exact h
        | found p1 => exact h
        | next p1 k1 => exact ih h

theorem loop_mono {ce : Int → List Int → Int} {tie : Nat → Nat} {fuel fuel1 : Nat}
    {p : NPuzzle} {k : Nat} {r : Bool × NPuzzle} (h : loop ce tie fuel p k = some r)
    (hle : fuel ≤ fuel1) : loop ce tie fuel1 p k = some r := by
  induction hle with
  | refl => exact h
  | step _ ih => exact loop_succ ih

/-- What holds when the main loop has ended. -/
theorem loop_post {ce : Int → List Int → Int} {tie : Nat → Nat} {start goal : NPuzzleNode}
    {fuel : Nat} {p : NPuzzle} {k : Nat} {b : Bool} {r : NPuzzle} (hi : Inv start goal p)
    (h : loop ce tie fuel p k = some (b, r)) :
    (b = true → Found start goal r) ∧ (b = false → Inv start goal r ∧ r.openList = []) := by
  induction fuel generalizing p k with
  | zero => simp [loop] at h
  | succ n ih =>
    rw [loop] at h
    split_ifs at h with he
    · simp only [Option.some.injEq, Prod.mk.injEq] at h
      obtain ⟨rfl, rfl⟩ := h
      exact ⟨fun hb => (by cases hb), fun _ => ⟨hi, by simpa using he⟩⟩
    · cases hp : pass ce tie p k with
      | none => rw [hp] at h; cases h
      | some res =>
        rw [hp] at h
        have hpost := hi.pass_inv hp
        cases res with
        | exhausted p1 =>
          simp only [Option.some.injEq, Prod.mk.injEq] at h
          obtain ⟨rfl, rfl⟩ := h
          exact ⟨fun hb => (by cases hb), fun _ => hpost⟩
        | found p1 =>
          simp only [Option.some.injEq, Prod.mk.injEq] at h
          obtain ⟨rfl, rfl⟩ := h
          exact ⟨fun _ => hpost, fun hb => by cases hb⟩
        | next p1 k1 => exact ih hpost.1 h

/-- The main loop ends within `m + 1` tests of its condition when at most `m` more
nodes can be explored. -/
theorem loop_terminates (ce : Int → List Int → Int) (tie : Nat → Nat)
    {start goal : NPuzzleNode} (hv : start.Valid) (hl : start.val.length ≤ goal.val.length)
    (m : Nat) (p : NPuzzle) (k : Nat) (hi : Inv start goal p)
    (hm : (start.val.length).factorial ≤ p.closeList.length + m) :
    ∃ r, loop ce tie (m + 1) p k = some r := by
  induction m generalizing p k with
  | zero =>
    rw [loop]
    split_ifs with he
    · exact ⟨_, rfl⟩
    · obtain ⟨res, hp⟩ := pass_isSome ce tie k hi hv hl (by simpa using he)
      rw [hp]
      have hpost := hi.pass_inv hp
      cases res with
      | exhausted p1 => exact ⟨_, rfl⟩
      | found p1 => exact ⟨_, rfl⟩
      | next p1 k1 =>
        have := hpost.1.closeList_le
        have := hpost.2
        omega
  | succ m ih =>
    rw [loop]
    split_ifs with he
    · exact ⟨_, rfl⟩
    · obtain ⟨res, hp⟩ := pass_isSome ce tie k hi hv hl (by simpa using he)
      rw [hp]
      have hpost := hi.pass_inv hp
      cases res with
      | exhausted p1 => exact ⟨_, rfl⟩
      | found p1 => exact ⟨_, rfl⟩
      | next p1 k1 =>
        have := hpost.2
        exact ih p1 k1 hpost.1 (by omega)

/-- A loop that ends through the branch `cur == des` has made some passes after which
the loop goes on, followed by the pass that takes that branch. -/
theorem loop_found {ce : Int → List Int → Int} {tie : Nat → Nat} {fuel : Nat} {p : NPuzzle}
    {k : Nat} {r : NPuzzle} (h : loop ce tie fuel p k = some (true, r)) :
    ∃ j p1 k1, j < fuel ∧ passes ce tie j p k = some (p1, k1) ∧
      pass ce tie p1 k1 = some (Pass.found r) := by
  induction fuel generalizing p k with
  | zero => simp [loop] at h
  | succ n ih =>
    rw [loop] at h
    split_ifs at h with he
    · simp at h
    · cases hp : pass ce tie p k with
      | none => rw [hp] at h; cases h
      | some res =>
        rw [hp] at h
        cases res with
        | exhausted p1 => simp at h
        | found p1 =>
          simp only [Option.some.injEq, Prod.mk.injEq, true_and] at h
          subst h
          exact ⟨0, p, k, Nat.succ_pos _, rfl, hp⟩
        | next p1 k1 =>
          obtain ⟨j, p2, k2, hj, hps, hf⟩ := ih h
          refine ⟨j + 1, p2, k2, by omega, ?_, hf⟩
          rw [passes, if_neg he, hp]
          exact hps

theorem Inv.passes_inv {ce : Int → List Int → Int} {tie : Nat → Nat} {start goal : NPuzzleNode}
    {j : Nat} {p p1 : NPuzzle} {k k1 : Nat} (hi : Inv start goal p)
    (h : passes ce tie j p k = some (p1, k1)) : Inv start goal p1 := by
  induction j generalizing p k with
  | zero =>
    simp only [NPuzzle.passes, Option.some.injEq, Prod.mk.injEq] at h
    rw [← h.1]
    exact hi
  | succ j ih =>
    rw [NPuzzle.passes] at h
    split_ifs at h with he
    split at h
    · rename_i p2 k2 hp
      exact ih (hi.pass_inv hp).1 h
    · cases h

theorem legalReplay_valid {s fin : NPuzzleNode} {ds : List Direction} (hv : s.Valid)
    (h : legalReplay s ds = some fin) :
    fin.Valid ∧ fin.row = s.row ∧ fin.col = s.col := by
  induction ds generalizing s with
  | nil =>
    simp only [legalReplay, Option.some.injEq] at h
    subst h
    exact ⟨hv, rfl, rfl⟩
  | cons a ds ih =>
    simp only [legalReplay] at h
    split_ifs at h
    cases hm : s.move a with
    | none => rw [hm] at h; cases h
    | some s1 =>
      rw [hm] at h
      obtain ⟨h1, h2, h3⟩ := ih (hv.move_valid hm) h
      obtain ⟨f1, f2, -⟩ := move_frame hm
      exact ⟨h1, h2.trans f1, h3.trans f2⟩

theorem move_none_val {n m : NPuzzleNode} (h : n.move Direction.NONE = some m) :
    m.val = n.val := by
  obtain ⟨⟨h1, h2, -, -⟩, rfl⟩ := move_eq_some h
  simp only [displace, add_zero]
  apply List.ext_getElem?
  intro i
  rw [getElem?_swapAt _ _ _ _ (by omega) (by omega)]
  split_ifs with hi
  · rw [hi]
  · rfl

/-- Once the frontier is empty, every state reachable from the start by legal moves
has its tiles in the explored set. -/
theorem Inv.reach_closed {start goal : NPuzzleNode} {p : NPuzzle} (hi : Inv start goal p)
    (hv : start.Valid) (he : p.openList = []) (ds : List Direction) :
    ∀ fin, legalReplay start ds = some fin → ∃ x ∈ p.closeList, x.val = fin.val := by
  induction ds using List.reverseRecOn with
  | nil =>
    intro fin h
    simp only [legalReplay, Option.some.injEq] at h
    subst h
    rcases hi.startIn with hx | ⟨x, hx, -⟩
    · exact hx
    · rw [he] at hx
      cases hx
  | append_singleton ds d ih =>
    intro fin h
    rw [legalReplay_append] at h
    cases hmid : legalReplay start ds with
    | none => rw [hmid] at h; cases h
    | some mid =>
      rw [hmid, Option.some_bind] at h
      split_ifs at h with hc
      obtain ⟨x, hx, hxv⟩ := ih mid hmid
      obtain ⟨ds1, ns1, t⟩ := hi.trace x (Or.inr hx)
      obtain ⟨hvm, hr, hcl⟩ := legalReplay_valid hv hmid
      have hvx := t.valid_of hv
      have hst : SameTiles mid x :=
        ⟨hxv.symm, (hvx.emptyPos_unique hvm hxv).symm, hr.trans t.dims.1.symm,
          hcl.trans t.dims.2.symm⟩
      obtain ⟨m1, hm1, hs1⟩ := hst.move_same h
      by_cases hd : d ∈ directions
      · rcases hi.closed x hx d hd (by rw [← hst.canMove_eq]; exact hc) m1 hm1 with
          ⟨y, hy, hyv⟩ | ⟨y, hy, -⟩
        · exact ⟨y, hy, hyv.trans hs1.1.symm⟩
        · rw [he] at hy
          cases hy
      · have hdn : d = Direction.NONE := by
          cases d <;> simp [directions] at hd ⊢
        subst hdn
        exact ⟨x, hx, hxv.trans (move_none_val h).symm⟩


theorem legalReplay_sameTiles {a b fa : NPuzzleNode} {ds : List Direction}
    (h : SameTiles a b) (hf : legalReplay a ds = some fa) :
    ∃ fb, legalReplay b ds = some fb ∧ SameTiles fa fb := by
  induction ds generalizing a b with
  | nil =>
    simp only [legalReplay, Option.some.injEq] at hf
    subst hf
    exact ⟨b, rfl, h⟩
  | cons d ds ih =>
    simp only [legalReplay] at hf
    split_ifs at hf with hc
    cases hm : a.move d with
    | none => rw [hm] at hf; cases hf
    | some a1 =>
      rw [hm] at hf
      obtain ⟨b1, hb1, hs1⟩ := h.move_same hm
      obtain ⟨fb, hfb, hsf⟩ := ih hs1 hf
      refine ⟨fb, ?_, hsf⟩
      simp only [legalReplay]
      rw [if_pos (by rw [← h.canMove_eq]; exact hc), hb1]
      exact hfb

/-- A list of legal moves can be undone by legal moves. -/
theorem legalReplay_reverse {s fin : NPuzzleNode} {ds : List Direction} (hv : s.Valid)
    (h : legalReplay s ds = some fin) :
    ∃ ds1 b, legalReplay fin ds1 = some b ∧ SameTiles b s := by
  induction ds generalizing s with
  | nil =>
    simp only [legalReplay, Option.some.injEq] at h
    subst h
    exact ⟨[], s, rfl, SameTiles.refl s⟩
  | cons d ds ih =>
    simp only [legalReplay] at h
    split_ifs at h with hc
    cases hm : s.move d with
    | none => rw [hm] at h; cases h
    | some s1 =>
      rw [hm] at h
      obtain ⟨ds1, b1, hb1, hs1⟩ := ih (hv.move_valid hm) h
      obtain ⟨hopp, b, hb, hsb⟩ := move_back hv hc hm
      obtain ⟨b2, hb2, hs2⟩ := hs1.symm.move_same hb
      refine ⟨ds1 ++ [opposite d], b2, ?_, hs2.symm.trans hsb⟩
      rw [legalReplay_append, hb1, Option.some_bind,
        if_pos (by rw [hs1.canMove_eq]; exact hopp)]
      exact hb2

/-- Between valid states of the same dimensions reachability is symmetric: a state
obtained from the goal by legal moves (a shuffled goal) can reach the goal. -/
theorem reachable_symm {s t : NPuzzleNode} (hs : s.Valid) (ht : t.Valid)
    (hr : t.row = s.row) (hc : t.col = s.col) (h : Reachable s t) : Reachable t s := by
  obtain ⟨ds, fin, hf, hval⟩ := h
  obtain ⟨hvf, hfr, hfc⟩ := legalReplay_valid hs hf
  have hst : SameTiles fin t :=
    ⟨hval, hvf.emptyPos_unique ht hval, hfr.trans hr.symm, hfc.trans hc.symm⟩
  obtain ⟨ds1, b, hb, hsb⟩ := legalReplay_reverse hs hf
  obtain ⟨b1, hb1, hs1⟩ := legalReplay_sameTiles hst hb
  exact ⟨ds1, b1, hb1, hs1.1.symm.trans hsb.1⟩

theorem length_le_of_valid {start goal : NPuzzleNode} (hs : start.Valid) (hg : goal.Valid)
    (hr : goal.row = start.row) (hc : goal.col = start.col) :
    start.val.length ≤ goal.val.length := by
  have h1 := hs.size_eq
  have h2 := hg.size_eq
  rw [hr, hc, ← h1] at h2
  omega

/-- With a valid start and a goal of the same size, `run` returns, for every supply
of fuel from `n! + 1` on, one and the same result. -/
theorem run_total (ce : Int → List Int → Int) (tie : Nat → Nat) (start goal : NPuzzleNode)
    (hv : start.Valid) (hl : start.val.length ≤ goal.val.length) :
    ∃ res, ∀ fuel, (start.val.length).factorial + 1 ≤ fuel →
      run ce tie fuel (new start goal) = some res := by
  obtain ⟨res, h⟩ := loop_terminates ce tie hv hl (start.val.length).factorial
    (enter (new start goal)) 0 (Inv.at_enter start goal) (by omega)
  exact ⟨res, fun fuel hf => loop_mono h hf⟩

/-- When `run` accepts the goal, the goal is reachable from the start. -/
theorem run_true_reachable {ce : Int → List Int → Int} {tie : Nat → Nat} {fuel : Nat}
    {start goal : NPuzzleNode} {r : NPuzzle}
    (h : run ce tie fuel (new start goal) = some (true, r)) : Reachable start goal := by
  obtain ⟨cur, ds, ns, t, hval, -⟩ := (loop_post (Inv.at_enter start goal) h).1 rfl
  obtain ⟨fin, hf, hs⟩ := t.legal_replay
  exact ⟨ds, fin, hf, hs.1.trans hval⟩

/-- When `run` ends without accepting the goal, the goal is not reachable from the
(valid) start. -/
theorem run_false_not_reachable {ce : Int → List Int → Int} {tie : Nat → Nat} {fuel : Nat}
    {start goal : NPuzzleNode} {r : NPuzzle} (hv : start.Valid)
    (h : run ce tie fuel (new start goal) = some (false, r)) : ¬ Reachable start goal := by
  obtain ⟨hi, he⟩ := (loop_post (Inv.at_enter start goal) h).2 rfl
  rintro ⟨ds, fin, hf, hval⟩
  obtain ⟨x, hx, hxv⟩ := hi.reach_closed hv he ds fin hf
  exact hi.notGoal x hx (hxv.trans hval)

theorem depth_of_none {x : NPuzzleNode} (h : x.parent = none) : depth x = 0 := by
  cases x
  simp only at h
  subst h
  rw [depth]

/-- The result of `run` when start and goal are the same node without parent. -/
theorem run_same (ce : Int → List Int → Int) (tie : Nat → Nat) (s : NPuzzleNode)
    (hp : s.parent = none) :
    run ce tie 1 (new s s) =
      some (true, NPuzzle.mk { s with g := 0 } { s with g := 0 } [] [{ s with g := 0 }] [] []) := by
  have hpop : openPop tie 0 [{ s with g := 0 }] = some ({ s with g := 0 }, []) := by
    simp [openPop, topCandidates, NPuzzleNode.gt, Nat.mod_one]
  have hloop : popLoop ce tie [] 1 0 [{ s with g := 0 }] = some ({ s with g := 0 }, [], 1) := by
    rw [popLoop, hpop]
    rfl
  have hcp : constructPath
      (NPuzzle.mk { s with g := 0 } { s with g := 0 } [] [{ s with g := 0 }] [] []) =
      NPuzzle.mk { s with g := 0 } { s with g := 0 } [] [{ s with g := 0 }] [] [] := by
    rw [constructPath_none _ hp]
  have hpass : pass ce tie (enter (new s s)) 0 = some (Pass.found
      (NPuzzle.mk { s with g := 0 } { s with g := 0 } [] [{ s with g := 0 }] [] [])) := by
    unfold pass
    simp only [enter, new, List.nil_append, List.length_singleton]
    rw [hloop]
    simp only [closeFind, closeInsert, List.any_nil, Bool.and_false, Bool.false_eq_true,
      if_false, List.nil_append, eqv, decide_True, if_true]
    rw [hcp]
  unfold run
  rw [loop, hpass]
  simp [enter, new]

end NPuzzle


namespace NPuzzleNode

/-! ## Properties of the puzzle node (C7 - C10) -/

/-- C10 (move reversibility): for a valid state `s` and a direction `d` (LEFT, UP,
RIGHT, DOWN, and NONE as well) with `s.canMove d`, the neighbour `m` of `s` in
direction `d` exists, the opposite direction is legal from `m`, and the neighbour of
`m` in the opposite direction has the tiles and the blank index of `s` (so it is `==`
to `s`). -/
theorem move_reversible (s : NPuzzleNode) (d : Direction) (hv : s.Valid)
    (hc : s.canMove d = true) :
    ∃ m, s.getAdjNode d = some m ∧ m.canMove (opposite d) = true ∧
      ∃ b, m.getAdjNode (opposite d) = some b ∧ b.val = s.val ∧
        b.emptyPos = s.emptyPos ∧ b.eqv s = true := by
  obtain ⟨m, hm⟩ := hv.move_isSome hc
  obtain ⟨hopp, b, hb, hs⟩ := move_back hv hc hm
  refine ⟨m, hm, hopp, b, hb, hs.1, hs.2.1, ?_⟩
  simp only [eqv, decide_eq_true_eq]
  exact hs.1

/-- C9, as the code has it: `move` makes no legality test and signals nothing.  For
a valid state and a direction `d` among LEFT, UP, RIGHT, DOWN with `canMove d` false,
the swap is outside the buffer exactly for UP, DOWN, LEFT with the blank at index `0`
and RIGHT with the blank at the last index; in the other cases (LEFT or RIGHT across
a row boundary) `move` returns a state whose tiles and blank index both differ from
those before. -/
theorem move_illegal (s : NPuzzleNode) (d : Direction) (hv : s.Valid)
    (hd : d ∈ NPuzzle.directions) (hc : s.canMove d = false) :
    (s.move d = none ↔
        d = Direction.UP ∨ d = Direction.DOWN ∨ (d = Direction.LEFT ∧ s.emptyPos = 0) ∨
          (d = Direction.RIGHT ∧ s.emptyPos = (s.val.length : Int) - 1)) ∧
      ∀ m, s.move d = some m → m.val ≠ s.val ∧ m.emptyPos ≠ s.emptyPos := by
  have hcp : 0 < s.col := by have := hv.col_ge; omega
  obtain ⟨hdec, hr0, hrc, hq0⟩ := tdivmod_decomp hv.pos_ge hcp
  have hlt := hv.pos_lt
  have hpos := hv.pos_ge
  have hsz := hv.size_eq
  have hrg := hv.row_ge
  constructor
  · simp only [NPuzzle.directions, List.mem_cons, List.mem_singleton, List.not_mem_nil,
      or_false] at hd
    have hnone : s.move d = none ↔ ¬ (0 ≤ s.emptyPos ∧ s.emptyPos < s.val.length ∧
        0 ≤ s.emptyPos + s.displace d ∧ s.emptyPos + s.displace d < s.val.length) := by
      constructor
      · intro h hb
        rw [move_of_inBounds s d hb] at h
        cases h
      · intro h
        unfold move
        simp only
        rw [if_neg h]
    rw [hnone]
    rcases hd with rfl | rfl | rfl | rfl <;>
      simp only [canMove, getRow, getCol, displace, bne_eq_false_iff_eq] at hc ⊢
    · simp
      omega
    · simp
      intro _ _ h
      rw [hc] at hdec
      omega
    · simp
      omega
    · simp
      intro _ _ _
      have h1 : s.emptyPos = s.col * (s.row - 1) + Int.tmod s.emptyPos s.col := by
        rw [← hc]; exact hdec
      rw [hsz]
      nlinarith
  · intro m hm
    have hvm := hv.move_valid hm
    obtain ⟨-, -, -, -, -, -, hp⟩ := move_frame hm
    have hne : m.emptyPos ≠ s.emptyPos := by
      rw [hp]
      simp only [NPuzzle.directions, List.mem_cons, List.mem_singleton, List.not_mem_nil,
        or_false] at hd
      rcases hd with rfl | rfl | rfl | rfl <;> simp [displace] <;> omega
    exact ⟨fun h => hne (hvm.emptyPos_unique hv h), hne⟩


/-- The scan of `init` returns the start value when no tile is `0`, and otherwise
the index (counted from `i`) of the last tile `0`. -/
theorem scanBlank_spec (vs : List Int) (i : Nat) (e : Int) :
    (0 ∉ vs ∧ scanBlank vs i e = e) ∨
      ∃ j, j < vs.length ∧ vs[j]? = some 0 ∧ scanBlank vs i e = ((i + j : Nat) : Int) ∧
        ∀ k, j < k → vs[k]? ≠ some 0 := by
  induction vs generalizing i e with
  | nil => left; simp [scanBlank]
  | cons v vs ih =>
    rw [scanBlank]
    rcases ih (i + 1) (if v = 0 then (i : Int) else e) with ⟨h0, hs⟩ | ⟨j, hj, hv, hs, hk⟩
    · by_cases hv0 : v = 0
      · right
        simp only [hv0, if_true] at hs ⊢
        refine ⟨0, by simp, by simp, by simp [hs], ?_⟩
        intro k hk
        obtain ⟨k, rfl⟩ : ∃ k1, k = k1 + 1 := ⟨k - 1, by omega⟩
        rw [List.getElem?_cons_succ]
        intro hc
        exact h0 (List.getElem?_mem hc)
      · left
        simp only [hv0, if_false] at hs ⊢
        refine ⟨?_, hs⟩
        simp only [List.mem_cons, not_or]
        exact ⟨fun h => hv0 h.symm, h0⟩
    · right
      refine ⟨j + 1, by simp [hj], by simpa using hv, ?_, ?_⟩
      · rw [hs]; push_cast; ring
      · intro k hk1
        obtain ⟨k, rfl⟩ : ∃ k1, k = k1 + 1 := ⟨k - 1, by omega⟩
        rw [List.getElem?_cons_succ]
        exact hk k (by omega)

theorem init_eq (val_ : List Int) (row_ col_ : Int) :
    init val_ row_ col_ =
      if row_ < 2 ∨ col_ < 2 then Except.error dimensionError
      else if (val_.length : Int) ≠ toSizeT (wrapInt32 (row_ * col_)) then
        Except.error sizeError
      else if scanBlank val_ 0 (-1) = -1 then Except.error blankError
      else Except.ok
        { val := val_, emptyPos := scanBlank val_ 0 (-1), row := row_, col := col_,
          g := 0, h := 0, parent := none, direc := Direction.NONE } := rfl

/-- A value inside the non-negative range of `int` is kept by the reduction to 32 bits
and by the conversion to `size_t`. -/
theorem toSizeT_wrapInt32 {x : Int} (h0 : 0 ≤ x) (h : x < 2147483648) :
    toSizeT (wrapInt32 x) = x := by
  unfold toSizeT wrapInt32
  omega

/-- The value compared with `val_.size()` is the product reduced modulo `2^32` when
that lies below `2^31`, and a value from `2^64 - 2^31` on otherwise. -/
theorem toSizeT_wrapInt32_cases (x : Int) :
    (toSizeT (wrapInt32 x) = x % 4294967296 ∧ x % 4294967296 < 2147483648) ∨
      18446744071562067968 ≤ toSizeT (wrapInt32 x) := by
  unfold toSizeT wrapInt32
  omega

/-- The constructor when `row_ * col_` is inside the range of `int`: the size test
compares with the product itself. -/
theorem init_in_range (val_ : List Int) (row_ col_ : Int) (h : row_ * col_ < 2147483648) :
    init val_ row_ col_ =
      if row_ < 2 ∨ col_ < 2 then Except.error dimensionError
      else if (val_.length : Int) ≠ row_ * col_ then Except.error sizeError
      else if scanBlank val_ 0 (-1) = -1 then Except.error blankError
      else Except.ok
        { val := val_, emptyPos := scanBlank val_ 0 (-1), row := row_, col := col_,
          g := 0, h := 0, parent := none, direc := Direction.NONE } := by
  rw [init_eq]
  by_cases h1 : row_ < 2 ∨ col_ < 2
  · rw [if_pos h1, if_pos h1]
  · rw [if_neg h1, if_neg h1]
    have h0 : 0 ≤ row_ * col_ := mul_nonneg (by omega) (by omega)
    rw [toSizeT_wrapInt32 h0 h]

/-- What an accepted construction stores. -/
theorem init_ok {val_ : List Int} {row_ col_ : Int} {n : NPuzzleNode}
    (h : init val_ row_ col_ = Except.ok n) :
    n.val = val_ ∧ n.row = row_ ∧ n.col = col_ ∧ n.parent = none ∧ 2 ≤ row_ ∧ 2 ≤ col_ ∧
      (val_.length : Int) = toSizeT (wrapInt32 (row_ * col_)) ∧ 0 ∈ val_ ∧ 0 ≤ n.emptyPos ∧
      n.emptyPos < val_.length ∧ val_[n.emptyPos.toNat]? = some 0 ∧
      ∀ k, n.emptyPos.toNat < k → val_[k]? ≠ some 0 := by
  rw [init_eq] at h
  split_ifs at h with h1 h2 h3
  simp only [Except.ok.injEq] at h
  subst h
  rcases scanBlank_spec val_ 0 (-1) with ⟨_, hs⟩ | ⟨j, hj, hv, hs, hk⟩
  · exact absurd hs h3
  · refine ⟨rfl, rfl, rfl, rfl, by omega, by omega, by omega, List.getElem?_mem hv, ?_, ?_, ?_, ?_⟩
    · show 0 ≤ scanBlank val_ 0 (-1)
      rw [hs]; omega
    · show scanBlank val_ 0 (-1) < val_.length
      rw [hs]; omega
    · show val_[(scanBlank val_ 0 (-1)).toNat]? = some 0
      rw [hs]; simpa using hv
    · show ∀ k, (scanBlank val_ 0 (-1)).toNat < k → val_[k]? ≠ some 0
      rw [hs]; simpa using hk

/-- An accepted construction whose `row_ * col_` is inside the range of `int` has
`row_ * col_` tiles. -/
theorem init_ok_size {val_ : List Int} {row_ col_ : Int} {n : NPuzzleNode}
    (h : init val_ row_ col_ = Except.ok n) (hlt : row_ * col_ < 2147483648) :
    (val_.length : Int) = row_ * col_ := by
  obtain ⟨-, -, -, -, h4, h5, h6, -⟩ := init_ok h
  rw [h6, toSizeT_wrapInt32 (mul_nonneg (by omega) (by omega)) hlt]

/-- The scan of `init` over a buffer of `k + 1` zeros ends at the last index. -/
theorem scanBlank_replicate (k i : Nat) (e : Int) :
    scanBlank (List.replicate (k + 1) 0) i e = ((i + k : Nat) : Int) := by
  induction k generalizing i e with
  | zero => simp [List.replicate, scanBlank]
  | succ k ih =>
    rw [List.replicate_succ, scanBlank, ih]
    push_cast
    ring

/-- The constructor on a buffer of `k + 1` zeros whose size passes the size test. -/
theorem init_replicate (k : Nat) (row_ col_ : Int) (hr : 2 ≤ row_) (hc : 2 ≤ col_)
    (hsz : ((k + 1 : Nat) : Int) = toSizeT (wrapInt32 (row_ * col_))) :
    init (List.replicate (k + 1) 0) row_ col_ =
      Except.ok ⟨List.replicate (k + 1) 0, (k : Int), row_, col_, 0, 0, none,
        Direction.NONE⟩ := by
  rw [init_eq, if_neg (by omega), List.length_replicate, if_neg (not_not.2 hsz),
    scanBlank_replicate, if_neg (by omega)]
  simp

/-- A move whose target index is at or beyond the end of the buffer is not defined. -/
theorem move_none_of_size_le (n : NPuzzleNode) (d : Direction)
    (h : (n.val.length : Int) ≤ n.emptyPos + n.displace d) : n.move d = none := by
  unfold move
  simp only
  rw [if_neg]
  omega

/-- The constructor for dimensions whose product is inside the range of `int`: it
fails with the dimension message iff `row < 2` or `col < 2`; otherwise with the size
message iff the number of values is not `row * col`; otherwise with the missing-blank
message iff no value is `0`; otherwise it succeeds, and then the node holds the given
values and dimensions and a blank index inside the buffer at which the tile is `0`.
The three messages are pairwise different. -/
theorem init_spec_in_range (val_ : List Int) (row_ col_ : Int)
    (hlt : row_ * col_ < 2147483648) :
    (init val_ row_ col_ = Except.error dimensionError ↔ (row_ < 2 ∨ col_ < 2)) ∧
    (init val_ row_ col_ = Except.error sizeError ↔
      ¬ (row_ < 2 ∨ col_ < 2) ∧ (val_.length : Int) ≠ row_ * col_) ∧
    (init val_ row_ col_ = Except.error blankError ↔
      ¬ (row_ < 2 ∨ col_ < 2) ∧ (val_.length : Int) = row_ * col_ ∧ 0 ∉ val_) ∧
    ((∃ n, init val_ row_ col_ = Except.ok n) ↔
      ¬ (row_ < 2 ∨ col_ < 2) ∧ (val_.length : Int) = row_ * col_ ∧ 0 ∈ val_) ∧
    (∀ n, init val_ row_ col_ = Except.ok n →
      n.val = val_ ∧ n.row = row_ ∧ n.col = col_ ∧ 0 ≤ n.emptyPos ∧
        n.emptyPos < n.val.length ∧ n.val[n.emptyPos.toNat]? = some 0) ∧
    dimensionError ≠ sizeError ∧ dimensionError ≠ blankError ∧ sizeError ≠ blankError := by
  have d1 : dimensionError ≠ sizeError := by decide
  have d2 : dimensionError ≠ blankError := by decide
  have d3 : sizeError ≠ blankError := by decide
  have hscan : scanBlank val_ 0 (-1) = -1 ↔ 0 ∉ val_ := by
    rcases scanBlank_spec val_ 0 (-1) with ⟨h0, hs⟩ | ⟨j, hj, hv, hs, hk⟩
    · simp [hs, h0]
    · constructor
      · intro h; rw [hs] at h; omega
      · intro h; exact absurd (List.getElem?_mem hv) h
  refine ⟨?_, ?_, ?_, ?_, ?_, d1, d2, d3⟩
  · rw [init_in_range val_ row_ col_ hlt]
    split_ifs with h1 h2 h3
    · simp [h1]
    · simp [h1, d1.symm]
    · simp [h1, d2.symm]
    · simp [h1]
  · rw [init_in_range val_ row_ col_ hlt]
    split_ifs with h1 h2 h3
    · simp [h1, d1]
    · simp [h1, h2]
    · have h2b := not_not.1 h2
      simp [h1, d3.symm, h2b]
    · have h2b := not_not.1 h2
      simp [h1, h2b]
  · rw [init_in_range val_ row_ col_ hlt]
    split_ifs with h1 h2 h3
    · simp [h1, d2]
    · simp [h1, d3, h2]
    · have h2b := not_not.1 h2
      have h0 := hscan.1 h3
      simp [h1, h2b, h0]
    · have h2b := not_not.1 h2
      have h0 : (0 : Int) ∈ val_ := by_contra fun h => h3 (hscan.2 h)
      simp [h1, h2b, h0]
  · rw [init_in_range val_ row_ col_ hlt]
    split_ifs with h1 h2 h3
    · simp [h1]
    · simp [h1, h2]
    · have h2b := not_not.1 h2
      have h0 := hscan.1 h3
      simp [h1, h2b, h0]
    · have h2b := not_not.1 h2
      have h0 : (0 : Int) ∈ val_ := by_contra fun h => h3 (hscan.2 h)
      simp [h1, h2b, h0]
  · intro n hn
    obtain ⟨h1, h2, h3, -, -, -, -, -, h4, h5, h6, -⟩ := init_ok hn
    subst h1
    exact ⟨rfl, h2, h3, h4, h5, h6⟩

/-- C7 (construction validation) fails on the code where `rows * cols` leaves the
range of a 32-bit `int`.  With no value and `rows = cols = 65536` the number of values
(0) differs from `rows * cols`, yet the constructor does not fail with the size message
but with the missing-blank message; with 65536 values `0` and `rows = 65536`,
`cols = 65537` the number of values differs from `rows * cols` as well, yet the
constructor succeeds.  The two messages are different. -/
theorem init_size_test_overflow :
    init [] 65536 65536 = Except.error blankError ∧
      (([] : List Int).length : Int) ≠ 65536 * 65536 ∧
      (∃ n, init (List.replicate 65536 0) 65536 65537 = Except.ok n ∧
        n.row = 65536 ∧ n.col = 65537 ∧ n.val.length = 65536 ∧
        (n.val.length : Int) ≠ n.row * n.col) ∧
      sizeError ≠ blankError := by
  refine ⟨rfl, by decide, ⟨_, init_replicate 65535 65536 65537 (by decide) (by decide)
    (by decide), rfl, rfl, List.length_replicate _ _, ?_⟩, by decide⟩
  show (((List.replicate (65535 + 1) (0 : Int)).length : Nat) : Int) ≠ 65536 * 65537
  rw [List.length_replicate]
  decide

/-- C8 fails as stated: the constructor accepts `{0,0,0,0}` on a 2 x 2 grid, whose
tiles are not a permutation of `0..3` (the value `1` does not occur, `0` occurs four
times). -/
theorem nonpermutation_accepted :
    ∃ n, init [0, 0, 0, 0] 2 2 = Except.ok n ∧
      ¬ List.Perm n.val ((List.range n.val.length).map Int.ofNat) ∧
      n.val.count 1 = 0 ∧ n.val.count 0 = 4 :=
  ⟨_, rfl, by decide, by decide, by decide⟩

/-- C8, as the code has it: a state that the constructor accepts holds the given
values unchanged, has `row, col ≥ 2`, holds the value `0` at least once, and its blank
index is that of the last `0`; nothing is checked about the other values.  When
`row * col` is inside the range of `int`, the state has `row * col` tiles, and it is
valid (tiles a permutation of `0 .. row * col - 1`) if and only if the given values
are a permutation of `0 .. n - 1` for their number `n`. -/
theorem init_accepts (val_ : List Int) (row_ col_ : Int) (n : NPuzzleNode)
    (h : init val_ row_ col_ = Except.ok n) :
    n.val = val_ ∧ n.row = row_ ∧ n.col = col_ ∧ 2 ≤ n.row ∧ 2 ≤ n.col ∧
      0 ∈ n.val ∧ 0 ≤ n.emptyPos ∧ n.val[n.emptyPos.toNat]? = some 0 ∧
      (∀ k, n.emptyPos.toNat < k → n.val[k]? ≠ some 0) ∧
      (n.row * n.col < 2147483648 →
        (n.val.length : Int) = n.row * n.col ∧
        (n.Valid ↔ List.Perm val_ ((List.range val_.length).map Int.ofNat))) := by
  have hsz := fun hlt => init_ok_size h hlt
  obtain ⟨h1, h2, h3, -, h4, h5, -, h7, h8, h9, h10, h11⟩ := init_ok h
  subst h1
  rw [h2, h3]
  refine ⟨rfl, rfl, rfl, h4, h5, h7, h8, h10, h11, fun hlt => ⟨hsz hlt, ?_⟩⟩
  constructor
  · intro hv
    exact hv.perm
  · intro hp
    exact ⟨h2 ▸ h4, h3 ▸ h5, by rw [h2, h3]; exact hsz hlt, hp, h8, h10⟩

/-- C8 (amended), instance: the accepted non-permutation `{0,0,0,0}` on a 2 x 2 grid. -/
theorem init_accepts_witness :
    init [0, 0, 0, 0] 2 2 = Except.ok ⟨[0, 0, 0, 0], 3, 2, 2, 0, 0, none, Direction.NONE⟩ ∧
      (0 : Int) ∈ [(0 : Int), 0, 0, 0] ∧
      ¬ (NPuzzleNode.mk [0, 0, 0, 0] 3 2 2 0 0 none Direction.NONE).Valid :=
  ⟨rfl, (init_accepts [0, 0, 0, 0] 2 2 ⟨[0, 0, 0, 0], 3, 2, 2, 0, 0, none, Direction.NONE⟩
    rfl).2.2.2.2.2.1,
    fun hv => absurd (((init_accepts [0, 0, 0, 0] 2 2
      ⟨[0, 0, 0, 0], 3, 2, 2, 0, 0, none, Direction.NONE⟩ rfl).2.2.2.2.2.2.2.2.2
        (by decide)).2.1 hv) (by decide)⟩

end NPuzzleNode


namespace NPuzzle

open NPuzzleNode

/-! ## Properties of the search (C1 - C6) -/

/-- C1 (path replay): when `run`, started on a start node without parent (as the
constructor builds it), leaves its loop through the branch `cur == des`, then applying
the moves of `getDirectionPath()` in order to the start with `move` (the last loop of
`NPuzzle::test`) is defined and gives a state `==` to the goal, and every move of the
list is legal (`canMove`) when it is applied. -/
theorem run_path_replay (ce : Int → List Int → Int) (tie : Nat → Nat) (fuel : Nat)
    (start goal : NPuzzleNode) (r : NPuzzle) (hp : start.parent = none)
    (h : run ce tie fuel (new start goal) = some (true, r)) :
    ∃ fin, replay start r.pathDirec = some fin ∧ fin.eqv goal = true ∧
      legalReplay start r.pathDirec = some fin := by
  obtain ⟨cur, ds, ns, t, hval, -, -, -, hpath⟩ :=
    (loop_post (Inv.at_enter start goal) h).1 rfl
  obtain ⟨hd, -, -⟩ := hpath hp
  obtain ⟨fin, hf, hs⟩ := t.legal_replay
  rw [hd]
  refine ⟨fin, replay_of_legalReplay hf, ?_, hf⟩
  simp only [eqv, decide_eq_true_eq]
  exact hs.1.trans hval

/-- C1, instance: the 2 x 2 start `{1,2,0,3}` and goal `{1,2,3,0}`. -/
theorem run_path_replay_witness :
    ∃ r, run ce0 tie0 3 (new boardA boardB) = some (true, r) ∧
      ∃ fin, replay boardA r.pathDirec = some fin ∧ fin.eqv boardB = true ∧
        legalReplay boardA r.pathDirec = some fin :=
  ⟨_, rfl, run_path_replay ce0 tie0 3 boardA boardB _ rfl rfl⟩

/-- C2 (completeness): for a valid start and a valid goal of the same dimensions such
that the goal is reachable from the start by legal moves, or the start is reachable
from the goal (a start obtained by shuffling the goal), `run` ends, for every supply
of fuel from `n! + 1` on, through the branch `cur == des`, with `des` a node `==` to
the goal, and this for every choice sequence `tie` (every order among entries of
equal `getF()`) and every `cantorExpand`.  The branch is taken in a pass of the main
loop reached after at most `n!` passes that go on: the accepted node `des` was popped
from the frontier of that pass, was not found in the explored set, in which no node is
`==` to the goal, and is the last node inserted into the explored set, which has at
most `n!` nodes.  The parent chain of the accepted node starts at the start; its moves
are as many as the cost `g` of the node, they are legal one after the other from the
start and lead to a state `==` to the goal, and they are the direction path that
`run` leaves when the start has no parent. -/
theorem run_complete (ce : Int → List Int → Int) (tie : Nat → Nat)
    (start goal : NPuzzleNode) (hs : start.Valid) (hg : goal.Valid)
    (hr : goal.row = start.row) (hc : goal.col = start.col)
    (hreach : Reachable start goal ∨ Reachable goal start) :
    ∃ r, (∀ fuel, (start.val.length).factorial + 1 ≤ fuel →
        run ce tie fuel (new start goal) = some (true, r)) ∧ r.des.eqv goal = true ∧
      (∃ j p k, j ≤ (start.val.length).factorial ∧
        passes ce tie j (enter (new start goal)) 0 = some (p, k) ∧
        pass ce tie p k = some (Pass.found r) ∧
        r.des ∈ p.openList ∧ closeFind ce p.closeList r.des = false ∧
        (∀ x ∈ p.closeList, x.eqv goal = false) ∧
        r.closeList = p.closeList ++ [r.des]) ∧
      r.getSearchCount ≤ (start.val.length).factorial ∧
      ∃ ds ns fin, Trace start r.des ds ns ∧ legalReplay start ds = some fin ∧
        fin.eqv goal = true ∧ r.des.g = ds.length ∧
        (start.parent = none → r.pathDirec = ds) := by
  have hreach1 : Reachable start goal := by
    rcases hreach with h | h
    · exact h
    · exact reachable_symm hg hs hr.symm hc.symm h
  obtain ⟨⟨b, r⟩, h⟩ := run_total ce tie start goal hs (length_le_of_valid hs hg hr hc)
  have h1 := h _ (le_refl _)
  cases b with
  | false => exact absurd hreach1 (run_false_not_reachable hs h1)
  | true =>
    obtain ⟨j, p, k, hj, hps, hpass⟩ := loop_found h1
    have hi : Inv start goal p := (Inv.at_enter start goal).passes_inv hps
    obtain ⟨cur, ds, ns, t, hval, hdes, -, hle, hpath⟩ :=
      (loop_post (Inv.at_enter start goal) h1).1 rfl
    obtain ⟨cur1, q1, k1, hpop, hcase⟩ := pass_cases hpass
    obtain ⟨hcur, -, -, -⟩ := popLoop_spec hpop
    have hacc : r.des ∈ p.openList ∧ closeFind ce p.closeList r.des = false ∧
        r.closeList = p.closeList ++ [r.des] := by
      rcases hcase with ⟨-, -, hh⟩ | ⟨hnf, -, hh⟩ | ⟨-, -, q2, -, hh⟩
      · cases hh
      · simp only [Pass.found.injEq] at hh
        have hd : r.des = cur1 := by rw [hh, constructPath_des]
        have hcl : r.closeList = p.closeList ++ [cur1] := by rw [hh, constructPath_closeList]
        rw [hd]
        exact ⟨hcur, hnf, hcl⟩
      · cases hh
    obtain ⟨fin, hf, hsame⟩ := t.legal_replay
    refine ⟨r, h, ?_, ⟨j, p, k, by omega, hps, hpass, hacc.1, hacc.2.1, ?_, hacc.2.2⟩, hle,
      ds, ns, fin, hdes ▸ t, hf, ?_, ?_, fun hp => (hpath hp).1⟩
    · rw [hdes]
      simpa [eqv] using hval
    · intro x hx
      simpa [eqv] using hi.notGoal x hx
    · simpa [eqv] using hsame.1.trans hval
    · rw [hdes]
      exact t.g_eq

/-- C2, the instance of the claim: the 3 x 3 start `{1,5,2,7,0,4,6,3,8}` and goal
`{1,2,3,4,5,6,7,8,0}`. -/
theorem run_complete_witness :
    Reachable start3 goal3 ∧
      ∃ r, (∀ fuel, (start3.val.length).factorial + 1 ≤ fuel →
        run ce0 tie0 fuel (new start3 goal3) = some (true, r)) ∧ r.des.eqv goal3 = true ∧
      (∃ j p k, j ≤ (start3.val.length).factorial ∧
        passes ce0 tie0 j (enter (new start3 goal3)) 0 = some (p, k) ∧
        pass ce0 tie0 p k = some (Pass.found r) ∧
        r.des ∈ p.openList ∧ closeFind ce0 p.closeList r.des = false ∧
        (∀ x ∈ p.closeList, x.eqv goal3 = false) ∧
        r.closeList = p.closeList ++ [r.des]) ∧
      r.getSearchCount ≤ (start3.val.length).factorial ∧
      ∃ ds ns fin, Trace start3 r.des ds ns ∧ legalReplay start3 ds = some fin ∧
        fin.eqv goal3 = true ∧ r.des.g = ds.length ∧
        (start3.parent = none → r.pathDirec = ds) :=
  ⟨⟨path3, _, rfl, rfl⟩,
    run_complete ce0 tie0 start3 goal3
      ⟨by decide, by decide, by decide, by decide, by decide, by decide⟩
      ⟨by decide, by decide, by decide, by decide, by decide, by decide⟩ rfl rfl
      (Or.inl ⟨path3, _, rfl, rfl⟩)⟩

/-- C3 (termination): for a valid start and a valid goal of the same dimensions, with
`n = row * col` tiles, `run` returns for every supply of fuel from `n! + 1` on, always
with the same result, which is either the acceptance of the goal or an empty frontier,
and with at most `n!` explored nodes; at the start of every pass of the main loop the
explored set has at most `n!` elements; and every pass after which the loop goes on
has appended to the explored set one node that was not found in it before. -/
theorem run_terminates (ce : Int → List Int → Int) (tie : Nat → Nat)
    (start goal : NPuzzleNode) (hs : start.Valid) (hg : goal.Valid)
    (hr : goal.row = start.row) (hc : goal.col = start.col) :
    (∃ b r, (∀ fuel, (start.val.length).factorial + 1 ≤ fuel →
        run ce tie fuel (new start goal) = some (b, r)) ∧
        (b = true ∨ r.openList = []) ∧
        r.getSearchCount ≤ (start.val.length).factorial) ∧
      ∀ j p k, passes ce tie j (enter (new start goal)) 0 = some (p, k) →
        p.closeList.length ≤ (start.val.length).factorial ∧
        ∀ p1 k1, pass ce tie p k = some (Pass.next p1 k1) →
          p1.closeList.length ≤ (start.val.length).factorial ∧
          ∃ cur, closeFind ce p.closeList cur = false ∧ p1.closeList = p.closeList ++ [cur] := by
  constructor
  · obtain ⟨⟨b, r⟩, h⟩ := run_total ce tie start goal hs (length_le_of_valid hs hg hr hc)
    refine ⟨b, r, h, ?_⟩
    have h1 := h _ (le_refl _)
    cases b with
    | true =>
      obtain ⟨cur, ds, ns, t, -, -, -, hle, -⟩ :=
        (loop_post (Inv.at_enter start goal) h1).1 rfl
      exact ⟨Or.inl rfl, hle⟩
    | false =>
      obtain ⟨hi, he⟩ := (loop_post (Inv.at_enter start goal) h1).2 rfl
      exact ⟨Or.inr he, hi.closeList_le⟩
  · intro j p k hj
    have hi : Inv start goal p := (Inv.at_enter start goal).passes_inv hj
    refine ⟨hi.closeList_le, ?_⟩
    intro p1 k1 hp
    refine ⟨(hi.pass_inv hp).1.closeList_le, ?_⟩
    obtain ⟨cur, q1, k2, -, hcase⟩ := pass_cases hp
    rcases hcase with ⟨-, -, hh⟩ | ⟨-, -, hh⟩ | ⟨hnf, -, q2, -, hh⟩
    · cases hh
    · cases hh
    · simp only [Pass.next.injEq] at hh
      exact ⟨cur, hnf, by rw [hh.1]⟩

/-- C3, instance: the 2 x 2 start `{1,2,3,0}` with the goal `{2,1,3,0}`. -/
theorem run_terminates_witness :
    boardB.Valid ∧ boardC.Valid ∧
      ∃ b r, (∀ fuel, (boardB.val.length).factorial + 1 ≤ fuel →
        run ce0 tie0 fuel (new boardB boardC) = some (b, r)) ∧
        (b = true ∨ r.openList = []) ∧
        r.getSearchCount ≤ (boardB.val.length).factorial :=
  ⟨⟨by decide, by decide, by decide, by decide, by decide, by decide⟩,
    ⟨by decide, by decide, by decide, by decide, by decide, by decide⟩,
    (run_terminates ce0 tie0 boardB boardC
      ⟨by decide, by decide, by decide, by decide, by decide, by decide⟩
      ⟨by decide, by decide, by decide, by decide, by decide, by decide⟩ rfl rfl).1⟩

/-- C4 (search exhaustion): for a valid start and a valid goal of the same dimensions
that is not reachable from the start by legal moves, `run` returns for every supply of
fuel from `n! + 1` on without having taken the branch `cur == des`, the frontier is
empty, and the move path and the state path are both empty; and with no supply of
fuel does it accept the goal. -/
theorem run_exhausts (ce : Int → List Int → Int) (tie : Nat → Nat)
    (start goal : NPuzzleNode) (hs : start.Valid) (hg : goal.Valid)
    (hr : goal.row = start.row) (hc : goal.col = start.col)
    (hn : ¬ Reachable start goal) :
    (∃ r, (∀ fuel, (start.val.length).factorial + 1 ≤ fuel →
        run ce tie fuel (new start goal) = some (false, r)) ∧
        r.openList = [] ∧ r.pathDirec = [] ∧ r.pathNode = []) ∧
      ∀ fuel r, run ce tie fuel (new start goal) ≠ some (true, r) := by
  have hnever : ∀ fuel r, run ce tie fuel (new start goal) ≠ some (true, r) :=
    fun fuel r h => hn (run_true_reachable h)
  refine ⟨?_, hnever⟩
  obtain ⟨⟨b, r⟩, h⟩ := run_total ce tie start goal hs (length_le_of_valid hs hg hr hc)
  have h1 := h _ (le_refl _)
  cases b with
  | true => exact absurd h1 (hnever _ r)
  | false =>
    obtain ⟨hi, he⟩ := (loop_post (Inv.at_enter start goal) h1).2 rfl
    exact ⟨r, h, he, hi.pathD, hi.pathN⟩

/-- C4, the instance of the claim: the 2 x 2 start `{1,2,3,0}` and goal `{2,1,3,0}`,
which is not reachable (the search from the start ends without finding it). -/
theorem run_exhausts_witness :
    ¬ Reachable boardB boardC ∧
      ∃ r, (∀ fuel, (boardB.val.length).factorial + 1 ≤ fuel →
        run ce0 tie0 fuel (new boardB boardC) = some (false, r)) ∧
        r.openList = [] ∧ r.pathDirec = [] ∧ r.pathNode = [] :=
  have hv : boardB.Valid := ⟨by decide, by decide, by decide, by decide, by decide, by decide⟩
  have hrun : ∃ r, run ce0 tie0 13 (new boardB boardC) = some (false, r) := ⟨_, rfl⟩
  have hn : ¬ Reachable boardB boardC := hrun.elim fun _ h => run_false_not_reachable hv h
  ⟨hn, (run_exhausts ce0 tie0 boardB boardC hv
    ⟨by decide, by decide, by decide, by decide, by decide, by decide⟩ rfl rfl hn).1⟩

/-- C5 fails as stated: with start and goal both the 2 x 2 board `{1,2,3,0}` the search
succeeds at once with one explored node and an empty move path, but the state path
is empty, not the single state. -/
theorem trivial_statePath_empty :
    ∃ r, run ce0 tie0 1 (new boardB boardB) = some (true, r) ∧ r.getSearchCount = 1 ∧
      r.pathDirec = [] ∧ r.pathNode = [] ∧ r.pathNode.length ≠ 1 :=
  ⟨_, rfl, rfl, rfl, rfl, by decide⟩

/-- C5, as the code has it: with start and goal the same node `s` (without parent, as
the constructor builds it), `run` succeeds in its first pass: the accepted node is
`s` with `g = 0`, it is the only explored node, the move path is empty, and the
state path is empty too (`constructPath` adds nothing for a node without parent). -/
theorem run_trivial (ce : Int → List Int → Int) (tie : Nat → Nat) (fuel : Nat)
    (s : NPuzzleNode) (hp : s.parent = none) :
    ∃ r, run ce tie (fuel + 1) (new s s) = some (true, r) ∧ r.des.eqv s = true ∧
      r.getSearchCount = 1 ∧ r.closeList.map (fun x => x.val) = [s.val] ∧
      r.pathDirec = [] ∧ r.pathNode = [] := by
  refine ⟨_, loop_mono (run_same ce tie s hp) (by omega), ?_, rfl, rfl, rfl, rfl⟩
  simp [eqv]

/-- C5 (amended), instance: the 2 x 2 board `{1,2,0,3}`. -/
theorem run_trivial_witness :
    boardA.parent = none ∧
      ∃ r, run ce0 tie0 (0 + 1) (new boardA boardA) = some (true, r) ∧
        r.des.eqv boardA = true ∧ r.getSearchCount = 1 ∧
        r.closeList.map (fun x => x.val) = [boardA.val] ∧
        r.pathDirec = [] ∧ r.pathNode = [] :=
  ⟨rfl, run_trivial ce0 tie0 0 boardA rfl⟩

/-- C6 (shape of the reconstructed path): when `run`, started on a start node without
parent, accepts a node whose parent chain has `k ≥ 1` links, the move list has length
`k`, the state list has length `k + 1`, its first state is `==` to the start, its
last state is `==` to the goal, and for every `i < k` the state `i + 1` is `==` to the
neighbour (`getAdjNode`) of the state `i` in the direction of the move `i`, a move
that is legal there. -/
theorem constructPath_shape (ce : Int → List Int → Int) (tie : Nat → Nat) (fuel : Nat)
    (start goal : NPuzzleNode) (r : NPuzzle) (hp : start.parent = none)
    (h : run ce tie fuel (new start goal) = some (true, r)) (hk : 1 ≤ depth r.des) :
    r.pathDirec.length = depth r.des ∧ r.pathNode.length = depth r.des + 1 ∧
      (∃ a, r.pathNode.head? = some a ∧ a.eqv start = true) ∧
      (∃ b, r.pathNode.getLast? = some b ∧ b.eqv goal = true) ∧
      ∀ i, i < depth r.des → ∃ a b d m, r.pathNode[i]? = some a ∧
        r.pathNode[i + 1]? = some b ∧ r.pathDirec[i]? = some d ∧ a.canMove d = true ∧
        a.getAdjNode d = some m ∧ m.eqv b = true := by
  obtain ⟨cur, ds, ns, t, hval, hdes, -, -, hpath⟩ :=
    (loop_post (Inv.at_enter start goal) h).1 rfl
  obtain ⟨hd, -, hn⟩ := hpath hp
  have hdepth := t.depth_eq hp
  rw [hdes] at hk ⊢
  have hpar : cur.parent ≠ none := by
    intro hc
    rw [depth_of_none hc] at hk
    omega
  rw [hd, hn hpar, hdepth]
  have hlen := t.length_eq
  refine ⟨rfl, hlen, ?_, ?_, ?_⟩
  · obtain ⟨a, ha, hs⟩ := t.head_same
    exact ⟨a, ha, by simpa [eqv] using hs.1⟩
  · exact ⟨cur, t.getLast_eq, by simpa [eqv] using hval⟩
  · intro i hi
    have h1 : i < ns.length := by omega
    have h2 : i + 1 < ns.length := by omega
    obtain ⟨hcm, m, hm, hs⟩ := t.links i ns[i] ns[i + 1] ds[i]
      (List.getElem?_eq_getElem h1) (List.getElem?_eq_getElem h2) (List.getElem?_eq_getElem hi)
    exact ⟨ns[i], ns[i + 1], ds[i], m, List.getElem?_eq_getElem h1,
      List.getElem?_eq_getElem h2, List.getElem?_eq_getElem hi, hcm, hm,
      by simpa [eqv] using hs.1⟩

/-- C6, instance: the 2 x 2 start `{1,2,0,3}` and goal `{1,2,3,0}`, one move apart. -/
theorem constructPath_shape_witness :
    ∃ r, run ce0 tie0 3 (new boardA boardB) = some (true, r) ∧ 1 ≤ depth r.des ∧
      r.pathDirec.length = depth r.des ∧ r.pathNode.length = depth r.des + 1 :=
  ⟨_, rfl, by decide,
    (constructPath_shape ce0 tie0 3 boardA boardB _ rfl rfl (by decide)).1,
    (constructPath_shape ce0 tie0 3 boardA boardB _ rfl rfl (by decide)).2.1⟩

end NPuzzle

namespace NPuzzleNode

/-! ## Instances for the properties of `move` -/

/-- C10, instance: the 2 x 2 board `{1,2,0,3}` and the direction RIGHT. -/
theorem move_reversible_witness :
    boardA.Valid ∧ boardA.canMove Direction.RIGHT = true ∧
      ∃ m, boardA.getAdjNode Direction.RIGHT = some m ∧
        m.canMove (opposite Direction.RIGHT) = true ∧
        ∃ b, m.getAdjNode (opposite Direction.RIGHT) = some b ∧ b.val = boardA.val ∧
          b.emptyPos = boardA.emptyPos ∧ b.eqv boardA = true :=
  ⟨⟨by decide, by decide, by decide, by decide, by decide, by decide⟩, by decide,
    move_reversible boardA Direction.RIGHT
      ⟨by decide, by decide, by decide, by decide, by decide, by decide⟩ (by decide)⟩

/-- C9 fails as stated: on the valid 2 x 2 board `{1,2,0,3}` (blank in column 0 of row
1) `canMove(LEFT)` is false, yet `move(LEFT)` returns normally with the tiles
`{1,0,2,3}` and the blank index 1: the state is altered and nothing is signalled. -/
theorem illegal_move_alters_state :
    boardA.Valid ∧ boardA.canMove Direction.LEFT = false ∧
      ∃ m, boardA.move Direction.LEFT = some m ∧ m.val = [1, 0, 2, 3] ∧ m.emptyPos = 1 ∧
        m.val ≠ boardA.val ∧ m.emptyPos ≠ boardA.emptyPos :=
  ⟨⟨by decide, by decide, by decide, by decide, by decide, by decide⟩, by decide,
    _, rfl, rfl, rfl, by decide, by decide⟩

/-- C9 (amended), instance: the 2 x 2 board `{1,2,0,3}` and the direction LEFT. -/
theorem move_illegal_witness :
    boardA.Valid ∧ boardA.canMove Direction.LEFT = false ∧
      ∀ m, boardA.move Direction.LEFT = some m →
        m.val ≠ boardA.val ∧ m.emptyPos ≠ boardA.emptyPos :=
  ⟨⟨by decide, by decide, by decide, by decide, by decide, by decide⟩, by decide,
    (move_illegal boardA Direction.LEFT
      ⟨by decide, by decide, by decide, by decide, by decide, by decide⟩ (by decide)
      (by decide)).2⟩

/-! ## Geometry without the permutation (C11, C12, C19) -/

theorem Valid.toGrid {n : NPuzzleNode} (hv : Valid n) : Grid n :=
  ⟨hv.row_ge, hv.col_ge, hv.size_eq, hv.pos_ge, hv.pos_lt⟩

/-- The row of the blank is below the number of rows (geometry only). -/
theorem Grid.row_below {n : NPuzzleNode} (hv : Grid n) : Int.tdiv n.emptyPos n.col < n.row := by
  have hc : 0 < n.col := by have := hv.col_ge; omega
  obtain ⟨hdec, hr0, hrc, hq0⟩ := tdivmod_decomp hv.pos_ge hc
  have hlt := hv.pos_lt
  rw [hv.size_eq] at hlt
  by_contra hcon
  have hle : n.row ≤ Int.tdiv n.emptyPos n.col := not_lt.1 hcon
  have : n.col * n.row ≤ n.col * Int.tdiv n.emptyPos n.col :=
    mul_le_mul_of_nonneg_left hle hc.le
  nlinarith

/-- A legal move keeps both cells of the swap inside the buffer (geometry only). -/
theorem Grid.swap_inBounds {n : NPuzzleNode} (hv : Grid n) {d : Direction}
    (hd : n.canMove d = true) :
    0 ≤ n.emptyPos ∧ n.emptyPos < n.val.length ∧ 0 ≤ n.emptyPos + n.displace d ∧
        n.emptyPos + n.displace d < n.val.length := by
  have hc : 0 < n.col := by have := hv.col_ge; omega
  obtain ⟨hdec, hr0, hrc, hq0⟩ := tdivmod_decomp hv.pos_ge hc
  have hlt := hv.pos_lt
  have hrow := hv.row_below
  have hsz := hv.size_eq
  have hpos := hv.pos_ge
  have hcq : 0 ≤ n.col * Int.tdiv n.emptyPos n.col := mul_nonneg hc.le hq0
  refine ⟨hpos, hlt, ?_, ?_⟩
  · cases d <;> simp only [canMove, getRow, getCol, displace, bne_iff_ne, ne_eq] at hd ⊢
    · omega
    · omega
    · have h1 : 1 ≤ Int.tdiv n.emptyPos n.col := by omega
      have : n.col * 1 ≤ n.col * Int.tdiv n.emptyPos n.col :=
        mul_le_mul_of_nonneg_left h1 hc.le
      linarith
    · omega
    · linarith
  · rw [hsz] at hlt ⊢
    cases d <;> simp only [canMove, getRow, getCol, displace, bne_iff_ne, ne_eq] at hd ⊢
    · omega
    · omega
    · linarith
    · have h1 : Int.tdiv n.emptyPos n.col ≤ n.row - 1 := by omega
      have : n.col * Int.tdiv n.emptyPos n.col ≤ n.col * (n.row - 1) :=
        mul_le_mul_of_nonneg_left h1 hc.le
      have h2 : Int.tmod n.emptyPos n.col ≤ n.col - 2 := by omega
      nlinarith
    · have h1 : Int.tdiv n.emptyPos n.col ≤ n.row - 2 := by omega
      have : n.col * Int.tdiv n.emptyPos n.col ≤ n.col * (n.row - 2) :=
        mul_le_mul_of_nonneg_left h1 hc.le
      nlinarith

/-- Geometry only: the blank index after a legal move, as row and
column: one column to the left or right in the same row, or one row up or down in
the same column. -/
theorem Grid.pos_after_move {n : NPuzzleNode} (hv : Grid n) {d : Direction}
    (hd : n.canMove d = true) :
    Int.tdiv (n.emptyPos + n.displace d) n.col =
        Int.tdiv n.emptyPos n.col +
          (match d with
            | Direction.UP => -1
            | Direction.DOWN => 1
            | _ => 0) ∧
      Int.tmod (n.emptyPos + n.displace d) n.col =
        Int.tmod n.emptyPos n.col +
          (match d with
            | Direction.LEFT => -1
            | Direction.RIGHT => 1
            | _ => 0) := by
  have hc : 0 < n.col := by have := hv.col_ge; omega
  obtain ⟨hdec, hr0, hrc, hq0⟩ := tdivmod_decomp hv.pos_ge hc
  generalize hq : Int.tdiv n.emptyPos n.col = q at *
  generalize hr : Int.tmod n.emptyPos n.col = r at *
  cases d <;> simp only [canMove, getRow, getCol, displace, bne_iff_ne, ne_eq, hq, hr] at hd ⊢
  · simp [hq, hr]
  · have h := tdivmod_unique (c := n.col) (q := q) (r := r - 1) hc hq0 (by omega) (by omega)
    have e : n.col * q + (r - 1) = n.emptyPos + -1 := by omega
    rw [e] at h
    simpa using h
  · have h := tdivmod_unique (c := n.col) (q := q - 1) (r := r) hc (by omega) hr0 hrc
    have e : n.col * (q - 1) + r = n.emptyPos + -n.col := by rw [hdec]; ring
    rw [e] at h
    simpa [sub_eq_add_neg] using h
  · have h := tdivmod_unique (c := n.col) (q := q) (r := r + 1) hc hq0 (by omega) (by omega)
    have e : n.col * q + (r + 1) = n.emptyPos + 1 := by omega
    rw [e] at h
    simpa using h
  · have h := tdivmod_unique (c := n.col) (q := q + 1) (r := r) hc (by omega) hr0 hrc
    have e : n.col * (q + 1) + r = n.emptyPos + n.col := by rw [hdec]; ring
    rw [e] at h
    simpa using h

theorem swapAt_self (l : List Int) (i : Nat) (hi : i < l.length) : swapAt l i i = l := by
  apply List.ext_getElem?
  intro k
  rw [getElem?_swapAt _ _ _ _ hi hi]
  split_ifs with hk
  · rw [hk]
  · rfl

/-- The move `NONE` of a state with its blank index inside the buffer returns the
state itself. -/
theorem move_NONE_self (n : NPuzzleNode) (h0 : 0 ≤ n.emptyPos)
    (h1 : n.emptyPos < n.val.length) : n.move Direction.NONE = some n := by
  rw [move_of_inBounds n Direction.NONE (by simp [displace]; omega)]
  simp only [displace, add_zero]
  rw [swapAt_self _ _ (by omega)]
  cases n
  rfl

/-- A defined move keeps the geometry and leaves the tile `0` at the new blank index. -/
theorem Grid.move_grid {n m : NPuzzleNode} (hg : Grid n) {d : Direction}
    (hb : n.val[n.emptyPos.toNat]? = some 0) (h : n.move d = some m) :
    Grid m ∧ m.val[m.emptyPos.toNat]? = some 0 := by
  obtain ⟨⟨h1, h2, h3, h4⟩, rfl⟩ := move_eq_some h
  refine ⟨⟨hg.row_ge, hg.col_ge, ?_, h3, ?_⟩, ?_⟩
  · simpa [length_swapAt] using hg.size_eq
  · simpa [length_swapAt] using h4
  · show (swapAt n.val n.emptyPos.toNat (n.emptyPos + n.displace d).toNat)[
      (n.emptyPos + n.displace d).toNat]? = some 0
    rw [getElem?_swapAt _ _ _ _ (by omega) (by omega), if_pos rfl]
    exact hb

theorem legalReplay_grid {n fin : NPuzzleNode} {ds : List Direction} (hg : Grid n)
    (hb : n.val[n.emptyPos.toNat]? = some 0) (h : NPuzzle.legalReplay n ds = some fin) :
    Grid fin ∧ fin.val[fin.emptyPos.toNat]? = some 0 := by
  induction ds generalizing n with
  | nil =>
    simp only [NPuzzle.legalReplay, Option.some.injEq] at h
    subst h
    exact ⟨hg, hb⟩
  | cons a ds ih =>
    simp only [NPuzzle.legalReplay] at h
    split_ifs at h
    cases hm : n.move a with
    | none => rw [hm] at h; cases h
    | some s1 =>
      rw [hm] at h
      obtain ⟨g1, b1⟩ := hg.move_grid hb hm
      exact ih g1 b1 h

/-- The blank-index invariant for constructions whose `row_ * col_` is inside the
range of `int`: `tiles[blankIndex] == 0` holds right after construction; it holds after
every list of moves each of which is legal (`canMove`, `NONE` included) when it is
applied; and from every state so reached every legal move is defined and again leaves
the tile `0` at the blank index. -/
theorem blank_invariant_in_range (val_ : List Int) (row_ col_ : Int) (n : NPuzzleNode)
    (h : init val_ row_ col_ = Except.ok n) (hlt : row_ * col_ < 2147483648) :
    n.val[n.emptyPos.toNat]? = some 0 ∧
      ∀ ds fin, NPuzzle.legalReplay n ds = some fin →
        fin.val[fin.emptyPos.toNat]? = some 0 ∧
        ∀ d, fin.canMove d = true →
          ∃ m, fin.move d = some m ∧ m.val[m.emptyPos.toNat]? = some 0 := by
  have h6 := init_ok_size h hlt
  obtain ⟨h1, h2, h3, -, h4, h5, -, -, h8, h9, h10, -⟩ := init_ok h
  have hg : Grid n := ⟨h2 ▸ h4, h3 ▸ h5, by rw [h1, h2, h3]; exact h6, h8, by rw [h1]; exact h9⟩
  have hb : n.val[n.emptyPos.toNat]? = some 0 := by rw [h1]; exact h10
  refine ⟨hb, ?_⟩
  intro ds fin hf
  obtain ⟨g1, b1⟩ := legalReplay_grid hg hb hf
  refine ⟨b1, ?_⟩
  intro d hd
  have hm := move_of_inBounds fin d (g1.swap_inBounds hd)
  exact ⟨_, hm, (g1.move_grid b1 hm).2⟩

/-- C11 (blank-index invariant) fails on the code where `rows * cols` leaves the range
of a 32-bit `int`: the constructor accepts 65536 values `0` with `rows = 65536`,
`cols = 65537`, and caches the blank index 65535 with `tiles[65535] == 0`; on that
state `canMove(DOWN)` is true, but `move(DOWN)` swaps with the index 131072, which is
outside the buffer of 65536 cells, so that no state with `tiles[blankIndex] == 0`
results from this legal move. -/
theorem blank_invariant_overflow :
    ∃ n, init (List.replicate 65536 0) 65536 65537 = Except.ok n ∧
      n.val.length = 65536 ∧ n.emptyPos = 65535 ∧ n.val[n.emptyPos.toNat]? = some 0 ∧
      n.canMove Direction.DOWN = true ∧
      n.emptyPos + n.displace Direction.DOWN = 131072 ∧
      n.move Direction.DOWN = none ∧
      NPuzzle.legalReplay n [Direction.DOWN] = none := by
  have hm : (NPuzzleNode.mk (List.replicate (65535 + 1) 0) ((65535 : Nat) : Int) 65536 65537
      0 0 none Direction.NONE).move Direction.DOWN = none := by
    apply move_none_of_size_le
    show (((List.replicate (65535 + 1) (0 : Int)).length : Nat) : Int) ≤
      ((65535 : Nat) : Int) + 65537
    rw [List.length_replicate]
    decide
  refine ⟨_, init_replicate 65535 65536 65537 (by decide) (by decide) (by decide),
    List.length_replicate _ _, rfl, ?_, by decide, by decide, hm, ?_⟩
  · show (List.replicate (65535 + 1) (0 : Int))[(((65535 : Nat) : Int)).toNat]? = some 0
    rw [Int.toNat_ofNat, List.getElem?_replicate]
    exact if_pos (by decide)
  · rw [NPuzzle.legalReplay, hm]
    split_ifs <;> rfl

/-- C12 (characterisation of `canMove`): for a state with blank index `p` inside the
buffer of an `R × C` grid (`R, C ≥ 2`), `canMove(LEFT)` is true iff `p mod C ≠ 0`,
`canMove(UP)` iff `p div C ≠ 0`, `canMove(RIGHT)` iff `p mod C ≠ C - 1`,
`canMove(DOWN)` iff `p div C ≠ R - 1`, `canMove(NONE)` is true and `move(NONE)` returns
the state unchanged; and `canMove(d)` is true iff the cell next to the blank in
direction `d` exists inside the grid. -/
theorem canMove_iff (n : NPuzzleNode) (hg : n.Grid) :
    (n.canMove Direction.LEFT = true ↔ n.emptyPos % n.col ≠ 0) ∧
    (n.canMove Direction.UP = true ↔ n.emptyPos / n.col ≠ 0) ∧
    (n.canMove Direction.RIGHT = true ↔ n.emptyPos % n.col ≠ n.col - 1) ∧
    (n.canMove Direction.DOWN = true ↔ n.emptyPos / n.col ≠ n.row - 1) ∧
    n.canMove Direction.NONE = true ∧ n.move Direction.NONE = some n ∧
    ∀ d, (n.canMove d = true ↔ AdjacentInGrid n d) := by
  have hc : 0 < n.col := by have := hg.col_ge; omega
  obtain ⟨hdec, hr0, hrc, hq0⟩ := tdivmod_decomp hg.pos_ge hc
  have hrl := hg.row_below
  have hcg := hg.col_ge
  have hrg := hg.row_ge
  have e1 : Int.tdiv n.emptyPos n.col = n.emptyPos / n.col := Int.tdiv_eq_ediv hg.pos_ge hc.le
  have e2 : Int.tmod n.emptyPos n.col = n.emptyPos % n.col := Int.tmod_eq_emod hg.pos_ge hc.le
  rw [e1] at hq0 hrl
  rw [e2] at hr0 hrc
  clear hdec
  refine ⟨?_, ?_, ?_, ?_, rfl, move_NONE_self n hg.pos_ge hg.pos_lt, ?_⟩
  · simp [canMove, getCol, e2]
  · simp [canMove, getRow, e1]
  · simp [canMove, getCol, e2]
  · simp [canMove, getRow, e1]
  · intro d
    cases d <;>
      simp only [canMove, getRow, getCol, e1, e2, AdjacentInGrid, rowStep, colStep,
        bne_iff_ne, ne_eq] <;>
      constructor <;> intro h <;> first | trivial | omega

/-- C12, instance: the 2 x 2 board `{1,2,0,3}`, blank at index 2 (row 1, column 0). -/
theorem canMove_iff_witness :
    boardA.Grid ∧ (boardA.canMove Direction.LEFT = true ↔ boardA.emptyPos % boardA.col ≠ 0) :=
  ⟨⟨by decide, by decide, by decide, by decide, by decide⟩,
    (canMove_iff boardA ⟨by decide, by decide, by decide, by decide, by decide⟩).1⟩

/-- C16 (equality): `operator==` is reflexive and symmetric; `a == b` holds iff the
tile sequences are equal, that is, have the same length and the same element at every
index; and its value depends on the tiles only: nodes with the tiles of `a` and of
`b`, whatever their `g`, `h`, `parent`, `direc`, dimensions and blank index, compare
as `a` and `b` do. -/
theorem eqv_spec (a b : NPuzzleNode) :
    a.eqv a = true ∧ a.eqv b = b.eqv a ∧ (a.eqv b = true ↔ a.val = b.val) ∧
      (a.eqv b = true ↔ a.val.length = b.val.length ∧ ∀ i : Nat, a.val[i]? = b.val[i]?) ∧
      ∀ a1 b1 : NPuzzleNode, a1.val = a.val → b1.val = b.val → a1.eqv b1 = a.eqv b := by
  refine ⟨by simp [eqv], ?_, by simp [eqv], ?_, ?_⟩
  · simp only [eqv]
    by_cases h : a.val = b.val
    · simp [h]
    · have h1 : ¬ b.val = a.val := fun hc => h hc.symm
      simp [h, h1]
  · simp only [eqv, decide_eq_true_eq]
    constructor
    · intro h
      rw [h]
      exact ⟨rfl, fun _ => rfl⟩
    · rintro ⟨-, h⟩
      exact List.ext_getElem? h
  · intro a1 b1 h1 h2
    simp only [eqv, h1, h2]

/-- C19 (indexing safety of `move`): for a state on an `R × C` grid (`R, C ≥ 2`,
`R * C` tiles, blank index `p` in `[0, R * C)`) and a direction `d` with `canMove(d)`,
the target index `p + displace(d)` lies in `[0, R * C)`, inside the tile buffer, so
that the swap is defined; it is in the row of `p` for LEFT and RIGHT and in the
column of `p` for UP and DOWN. -/
theorem move_index_safe (n : NPuzzleNode) (d : Direction) (hg : n.Grid)
    (hc : n.canMove d = true) :
    0 ≤ n.emptyPos + n.displace d ∧ n.emptyPos + n.displace d < n.row * n.col ∧
      (n.emptyPos + n.displace d).toNat < n.val.length ∧
      (∃ m, n.move d = some m) ∧
      (d = Direction.LEFT ∨ d = Direction.RIGHT →
        n.getRow (n.emptyPos + n.displace d) = n.getRow n.emptyPos) ∧
      (d = Direction.UP ∨ d = Direction.DOWN →
        n.getCol (n.emptyPos + n.displace d) = n.getCol n.emptyPos) := by
  obtain ⟨h1, h2, h3, h4⟩ := hg.swap_inBounds hc
  obtain ⟨hq, hr⟩ := hg.pos_after_move hc
  refine ⟨h3, by rw [← hg.size_eq]; exact h4, by omega,
    ⟨_, move_of_inBounds n d ⟨h1, h2, h3, h4⟩⟩, ?_, ?_⟩
  · rintro (rfl | rfl) <;> simpa [getRow] using hq
  · rintro (rfl | rfl) <;> simpa [getCol] using hr

/-- C19, instance: the 2 x 2 board `{1,2,0,3}` and the direction UP. -/
theorem move_index_safe_witness :
    boardA.Grid ∧ boardA.canMove Direction.UP = true ∧
      0 ≤ boardA.emptyPos + boardA.displace Direction.UP :=
  ⟨⟨by decide, by decide, by decide, by decide, by decide⟩, by decide,
    (move_index_safe boardA Direction.UP
      ⟨by decide, by decide, by decide, by decide, by decide⟩ (by decide)).1⟩

theorem Valid.nodup {n : NPuzzleNode} (hv : Valid n) : n.val.Nodup :=
  (List.Perm.nodup_iff hv.perm).2
    (List.Nodup.map (f := Int.ofNat) (fun _ _ hxy => Int.ofNat.inj hxy) (List.nodup_range _))

/-- C18 (move frame): for a valid state and a direction `d` with `canMove(d)`,
`move(d)`, and so the copy that `getAdjNode(d)` returns, keeps the dimensions and the
number of tiles, sets the blank index to the target index, puts the tile of the target
cell at the old blank index and `0` at the target index, and leaves every other
tile as it was; when `d` is not `NONE` the two indices differ and the tiles at both
do change; the tiles after the move are a rearrangement of the tiles before, and
the state is valid again. -/
theorem move_changes_two (n : NPuzzleNode) (d : Direction) (hv : n.Valid)
    (hc : n.canMove d = true) :
    ∃ m, n.move d = some m ∧ n.getAdjNode d = some m ∧ m.row = n.row ∧ m.col = n.col ∧
      m.emptyPos = n.emptyPos + n.displace d ∧ m.val.length = n.val.length ∧
      m.val[n.emptyPos.toNat]? = n.val[(n.emptyPos + n.displace d).toNat]? ∧
      m.val[(n.emptyPos + n.displace d).toNat]? = some 0 ∧
      (∀ k, k ≠ n.emptyPos.toNat → k ≠ (n.emptyPos + n.displace d).toNat →
        m.val[k]? = n.val[k]?) ∧
      (d ≠ Direction.NONE →
        (n.emptyPos + n.displace d).toNat ≠ n.emptyPos.toNat ∧
        m.val[n.emptyPos.toNat]? ≠ n.val[n.emptyPos.toNat]? ∧
        m.val[(n.emptyPos + n.displace d).toNat]? ≠
          n.val[(n.emptyPos + n.displace d).toNat]?) ∧
      List.Perm m.val n.val ∧ m.Valid := by
  obtain ⟨h1, h2, h3, h4⟩ := hv.inBounds hc
  have hm := move_of_inBounds n d ⟨h1, h2, h3, h4⟩
  have hi : n.emptyPos.toNat < n.val.length := by omega
  have hj : (n.emptyPos + n.displace d).toNat < n.val.length := by omega
  have hcol := hv.col_ge
  refine ⟨_, hm, hm, rfl, rfl, rfl, by simp [length_swapAt], ?_, ?_, ?_, ?_,
    move_perm hm, hv.move_valid hm⟩
  · show (swapAt n.val _ _)[n.emptyPos.toNat]? = _
    rw [getElem?_swapAt _ _ _ _ hi hj]
    by_cases h : n.emptyPos.toNat = (n.emptyPos + n.displace d).toNat
    · rw [if_pos h, ← h]
    · rw [if_neg h, if_pos rfl]
  · show (swapAt n.val _ _)[(n.emptyPos + n.displace d).toNat]? = _
    rw [getElem?_swapAt _ _ _ _ hi hj, if_pos rfl]
    exact hv.blank
  · intro k hk1 hk2
    show (swapAt n.val _ _)[k]? = _
    rw [getElem?_swapAt _ _ _ _ hi hj, if_neg hk2, if_neg hk1]
  · intro hd
    have hne : (n.emptyPos + n.displace d).toNat ≠ n.emptyPos.toNat := by
      cases d <;> simp only [displace] at h3 h4 ⊢ <;> first | omega | exact absurd rfl hd
    have hdiff : n.val[(n.emptyPos + n.displace d).toNat]? ≠ n.val[n.emptyPos.toNat]? := by
      rw [List.getElem?_eq_getElem hi, List.getElem?_eq_getElem hj]
      intro heq
      exact hne ((List.Nodup.getElem_inj_iff hv.nodup).1 (Option.some.inj heq))
    refine ⟨hne, ?_, ?_⟩
    · show (swapAt n.val _ _)[n.emptyPos.toNat]? ≠ _
      rw [getElem?_swapAt _ _ _ _ hi hj, if_neg (Ne.symm hne), if_pos rfl]
      exact hdiff
    · show (swapAt n.val _ _)[(n.emptyPos + n.displace d).toNat]? ≠ _
      rw [getElem?_swapAt _ _ _ _ hi hj, if_pos rfl, hv.blank, ← hv.blank]
      exact Ne.symm hdiff

/-- C18, instance: the 2 x 2 board `{1,2,0,3}` and the direction RIGHT. -/
theorem move_changes_two_witness :
    boardA.Valid ∧ boardA.canMove Direction.RIGHT = true ∧
      ∃ m, boardA.move Direction.RIGHT = some m ∧ boardA.getAdjNode Direction.RIGHT = some m ∧
        m.row = boardA.row :=
  ⟨⟨by decide, by decide, by decide, by decide, by decide, by decide⟩, by decide,
    (move_changes_two boardA Direction.RIGHT
      ⟨by decide, by decide, by decide, by decide, by decide, by decide⟩ (by decide)).imp
      fun _ h => ⟨h.1, h.2.1, h.2.2.1⟩⟩

end NPuzzleNode


namespace NPuzzle

open NPuzzleNode

/-! ## Shuffling and the cost bookkeeping of the search (C14, C17) -/

theorem legalReplay_perm {n fin : NPuzzleNode} {ds : List Direction}
    (h : legalReplay n ds = some fin) : List.Perm fin.val n.val := by
  induction ds generalizing n with
  | nil =>
    simp only [legalReplay, Option.some.injEq] at h
    subst h
    exact List.Perm.refl _
  | cons a ds ih =>
    simp only [legalReplay] at h
    split_ifs at h
    cases hm : n.move a with
    | none => rw [hm] at h; cases h
    | some s1 =>
      rw [hm] at h
      exact (ih h).trans (move_perm hm)

/-- The loop of `shuffle` is defined on a valid state, and what it returns is reached
from that state by a list of legal moves. -/
theorem shuffleLoop_reach (rand : Nat → Int) (k i : Nat) (n : NPuzzleNode) (hv : n.Valid) :
    ∃ m ds, shuffleLoop rand k i n = some m ∧ legalReplay n ds = some m := by
  induction k generalizing i n with
  | zero => exact ⟨n, [], rfl, rfl⟩
  | succ k ih =>
    rw [shuffleLoop]
    cases hd : Direction.ofInt (rand i) with
    | none => exact ih (i + 1) n hv
    | some d =>
      simp only
      split_ifs with hc
      · obtain ⟨m1, hm1⟩ := hv.move_isSome hc
        rw [hm1]
        obtain ⟨m, ds, h1, h2⟩ := ih (i + 1) m1 (hv.move_valid hm1)
        refine ⟨m, d :: ds, h1, ?_⟩
        simp only [legalReplay]
        rw [if_pos hc, hm1]
        exact h2
      · exact ih (i + 1) n hv

/-- C14 (shuffle reachability): for every valid state and every sequence of draws of
the random source, `shuffle` returns a state that is reached from the original state
by a list of moves each legal when applied; hence its tiles are a rearrangement of
the original tiles (the same multiset), its dimensions are the same, the tile at its
blank index is `0`, and it is valid. -/
theorem shuffle_reachable (rand : Nat → Int) (n : NPuzzleNode) (hv : n.Valid) :
    ∃ m, n.shuffle rand = some m ∧ (∃ ds, legalReplay n ds = some m) ∧
      List.Perm m.val n.val ∧ m.row = n.row ∧ m.col = n.col ∧
      m.val[m.emptyPos.toNat]? = some 0 ∧ m.Valid := by
  obtain ⟨m, ds, h1, h2⟩ := shuffleLoop_reach rand 1000 0 n hv
  obtain ⟨hvm, hr, hc⟩ := legalReplay_valid hv h2
  exact ⟨m, h1, ⟨ds, h2⟩, legalReplay_perm h2, hr, hc, hvm.blank, hvm⟩

/-- C14, instance: the 2 x 2 board `{1,2,0,3}` with every draw equal to 3. -/
theorem shuffle_reachable_witness :
    boardA.Valid ∧
      ∃ m, boardA.shuffle (fun _ => 3) = some m ∧ (∃ ds, legalReplay boardA ds = some m) ∧
        List.Perm m.val boardA.val ∧ m.row = boardA.row ∧ m.col = boardA.col ∧
        m.val[m.emptyPos.toNat]? = some 0 ∧ m.Valid :=
  ⟨⟨by decide, by decide, by decide, by decide, by decide, by decide⟩,
    shuffle_reachable (fun _ => 3) boardA
      ⟨by decide, by decide, by decide, by decide, by decide, by decide⟩⟩

theorem chainMoves_none {x : NPuzzleNode} (h : x.parent = none) : chainMoves x = [] := by
  cases x
  simp only at h
  subst h
  rw [chainMoves]

theorem chainMoves_some {x p : NPuzzleNode} (h : x.parent = some p) :
    chainMoves x = chainMoves p ++ [x.direc] := by
  cases x
  simp only at h
  subst h
  rw [chainMoves]

theorem chainRoot_none {x : NPuzzleNode} (h : x.parent = none) : chainRoot x = x := by
  cases x
  simp only at h
  subst h
  rw [chainRoot]

theorem chainRoot_some {x p : NPuzzleNode} (h : x.parent = some p) :
    chainRoot x = chainRoot p := by
  cases x
  simp only at h
  subst h
  rw [chainRoot]

/-- The moves and the root of the parent chain of a node traced back to `start`. -/
theorem Trace.chain_eq {start x : NPuzzleNode} {ds : List Direction}
    {ns : List NPuzzleNode} (t : Trace start x ds ns) (hs : start.parent = none) :
    chainMoves x = ds ∧ SameTiles (chainRoot x) start := by
  induction t with
  | root x hp ht hg =>
    have h := hp.trans hs
    exact ⟨chainMoves_none h, by rw [chainRoot_none h]; exact ht⟩
  | step x p m ds ns hp tp hc hm ht hg ih =>
    exact ⟨by rw [chainMoves_some hp, ih.1], by rw [chainRoot_some hp]; exact ih.2⟩

theorem Trace.costOK {start x : NPuzzleNode} {ds : List Direction}
    {ns : List NPuzzleNode} (t : Trace start x ds ns) (hs : start.parent = none) :
    x.g = (depth x : Int) ∧ (chainRoot x).val = start.val ∧
      (chainMoves x).length = depth x ∧
      ∃ fin, legalReplay start (chainMoves x) = some fin ∧ fin.val = x.val := by
  obtain ⟨hm, hr⟩ := t.chain_eq hs
  obtain ⟨fin, hf, hst⟩ := t.legal_replay
  rw [hm, t.depth_eq hs]
  exact ⟨t.g_eq, hr.1, rfl, fin, hf, hst.1⟩

theorem constructPath_openList (p : NPuzzle) : (constructPath p).openList = p.openList := by
  unfold constructPath
  split <;> rfl

/-- After the pass that accepts the goal every node of the frontier and of the
explored set still has its parent chain traced back to the start. -/
theorem Inv.found_trace {ce : Int → List Int → Int} {tie : Nat → Nat}
    {start goal : NPuzzleNode} {p p1 : NPuzzle} {k : Nat} (hi : Inv start goal p)
    (h : pass ce tie p k = some (Pass.found p1)) :
    ∀ x, x ∈ p1.openList ∨ x ∈ p1.closeList → ∃ ds ns, Trace start x ds ns := by
  obtain ⟨cur, q1, k1, hpop, hcase⟩ := pass_cases h
  obtain ⟨hcur, hq1, -, -⟩ := popLoop_spec hpop
  rcases hcase with ⟨-, -, hh⟩ | ⟨-, -, hh⟩ | ⟨-, -, q2, -, hh⟩
  · cases hh
  · simp only [Pass.found.injEq] at hh
    subst hh
    intro x hx
    rw [constructPath_openList, constructPath_closeList] at hx
    rcases hx with hx | hx
    · exact hi.trace x (Or.inl (hq1 x hx))
    · rcases List.mem_append.1 hx with hx | hx
      · exact hi.trace x (Or.inr hx)
      · simp only [List.mem_singleton] at hx
        subst hx
        exact hi.trace x (Or.inl hcur)
  · cases hh

theorem loop_trace {ce : Int → List Int → Int} {tie : Nat → Nat} {start goal : NPuzzleNode}
    {fuel : Nat} {p : NPuzzle} {k : Nat} {b : Bool} {r : NPuzzle} (hi : Inv start goal p)
    (h : loop ce tie fuel p k = some (b, r)) :
    ∀ x, x ∈ r.openList ∨ x ∈ r.closeList → ∃ ds ns, Trace start x ds ns := by
  induction fuel generalizing p k with
  | zero => simp [loop] at h
  | succ n ih =>
    rw [loop] at h
    split_ifs at h with he
    · simp only [Option.some.injEq, Prod.mk.injEq] at h
      obtain ⟨-, rfl⟩ := h
      exact hi.trace
    · cases hp : pass ce tie p k with
      | none => rw [hp] at h; cases h
      | some res =>
        rw [hp] at h
        cases res with
        | exhausted p1 =>
          simp only [Option.some.injEq, Prod.mk.injEq] at h
          obtain ⟨-, rfl⟩ := h
          exact (hi.pass_inv hp).1.trace
        | found p1 =>
          simp only [Option.some.injEq, Prod.mk.injEq] at h
          obtain ⟨-, rfl⟩ := h
          exact hi.found_trace hp
        | next p1 k1 => exact ih (hi.pass_inv hp).1 h

/-- C17 (cost bookkeeping): for a start node without parent (as the constructor builds
it), at the start of every pass of the main loop of `run` and when `run` has returned,
every node of the frontier and of the explored set has `g` equal to the length of its
parent chain, the root of that chain has the tiles of the start, and the `direc`
members of the chain, replayed from the start in start-to-node order, are as many
moves as `g`, each legal when applied, and lead to the tiles of the node. -/
theorem run_cost_invariant (ce : Int → List Int → Int) (tie : Nat → Nat)
    (start goal : NPuzzleNode) (hp : start.parent = none) :
    (∀ j p k, passes ce tie j (enter (new start goal)) 0 = some (p, k) → CostOK start p) ∧
      ∀ fuel b r, run ce tie fuel (new start goal) = some (b, r) → CostOK start r := by
  constructor
  · intro j p k hj x hx
    obtain ⟨ds, ns, t⟩ := ((Inv.at_enter start goal).passes_inv hj).trace x hx
    exact t.costOK hp
  · intro fuel b r hr x hx
    obtain ⟨ds, ns, t⟩ := loop_trace (Inv.at_enter start goal) hr x hx
    exact t.costOK hp

/-- C17, instance: the search from the 2 x 2 board `{1,2,0,3}` to `{1,2,3,0}`. -/
theorem run_cost_invariant_witness :
    boardA.parent = none ∧
      ∀ fuel b r, run ce0 tie0 fuel (new boardA boardB) = some (b, r) → CostOK boardA r :=
  ⟨rfl, (run_cost_invariant ce0 tie0 boardA boardB rfl).2⟩

end NPuzzle


namespace Algorithm

/-! ## The permutation rank and the hash (C13) -/

/-- The rank is below the factorial of the length. -/
theorem cantorRank_lt (l : List Int) : cantorRank l < l.length.factorial := by
  induction l with
  | nil => simp [cantorRank]
  | cons x xs ih =>
    rw [cantorRank, List.length_cons, Nat.factorial_succ]
    have h1 : (xs.filter (fun y => decide (y < x))).length ≤ xs.length :=
      List.length_filter_le _ _
    have h2 : (xs.filter (fun y => decide (y < x))).length * xs.length.factorial ≤
        xs.length * xs.length.factorial := Nat.mul_le_mul_right _ h1
    rw [Nat.succ_mul]
    omega

/-- Digits of a mixed-radix number are determined by the number. -/
theorem digit_unique {c1 c2 r1 r2 F : Nat} (h1 : r1 < F) (h2 : r2 < F)
    (h : c1 * F + r1 = c2 * F + r2) : c1 = c2 ∧ r1 = r2 := by
  have hc : c1 = c2 := by
    rcases Nat.lt_trichotomy c1 c2 with hlt | heq | hgt
    · have : (c1 + 1) * F ≤ c2 * F := Nat.mul_le_mul_right _ hlt
      rw [Nat.succ_mul] at this
      omega
    · exact heq
    · have : (c2 + 1) * F ≤ c1 * F := Nat.mul_le_mul_right _ hgt
      rw [Nat.succ_mul] at this
      omega
  subst hc
  exact ⟨rfl, by omega⟩

/-- In a list that holds `a`, fewer values lie below `a` than below a larger `b`. -/
theorem countBelow_lt (l : List Int) (a b : Int) (hab : a < b) (ha : a ∈ l) :
    (l.filter (fun y => decide (y < a))).length < (l.filter (fun y => decide (y < b))).length := by
  rw [← List.countP_eq_length_filter, ← List.countP_eq_length_filter]
  induction l with
  | nil => cases ha
  | cons x xs ih =>
    have hmono : List.countP (fun y => decide (y < a)) xs ≤
        List.countP (fun y => decide (y < b)) xs :=
      List.countP_mono_left (fun y _ hy => by
        simp only [decide_eq_true_eq] at hy ⊢
        omega)
    rw [List.countP_cons, List.countP_cons]
    rcases List.mem_cons.1 ha with rfl | hmem
    · simp only [lt_self_iff_false, decide_False, Bool.false_eq_true, if_false, hab,
        decide_True, if_true]
      omega
    · have := ih hmem
      by_cases hxa : x < a
      · have hxb : x < b := by omega
        simp only [hxa, hxb, decide_True, if_true]
        omega
      · simp only [hxa, decide_False, Bool.false_eq_true, if_false]
        split_ifs <;> omega

/-- The number of values below the head, counted in the tail or in the whole list. -/
theorem countBelow_head (x : Int) (xs : List Int) :
    ((x :: xs).filter (fun y => decide (y < x))).length =
      (xs.filter (fun y => decide (y < x))).length := by
  simp [List.filter_cons]

/-- Two arrangements of the same distinct values with the same rank are equal. -/
theorem cantorRank_injective (l1 l2 : List Int) (hp : List.Perm l1 l2) (hn : l1.Nodup)
    (h : cantorRank l1 = cantorRank l2) : l1 = l2 := by
  induction l1 generalizing l2 with
  | nil => exact (List.Perm.nil_eq hp)
  | cons a t1 ih =>
    cases l2 with
    | nil => exact absurd hp.length_eq (by simp)
    | cons b t2 =>
      have hlen : t1.length = t2.length := by
        have := hp.length_eq
        simpa using this
      rw [cantorRank, cantorRank, hlen] at h
      have hr1 := cantorRank_lt t1
      have hr2 := cantorRank_lt t2
      rw [hlen] at hr1
      obtain ⟨hc, hr⟩ := digit_unique hr1 hr2 h
      have hab : a = b := by
        have ca : ∀ v : Int, ((a :: t1).filter (fun y => decide (y < v))).length =
            ((b :: t2).filter (fun y => decide (y < v))).length := fun v =>
          (hp.filter _).length_eq
        have ha2 : a ∈ b :: t2 := hp.mem_iff.1 (List.mem_cons_self _ _)
        have hb1 : b ∈ a :: t1 := hp.mem_iff.2 (List.mem_cons_self _ _)
        rcases lt_trichotomy a b with hlt | heq | hgt
        · have h1 := countBelow_lt (b :: t2) a b hlt ha2
          rw [← ca a, countBelow_head, countBelow_head] at h1
          omega
        · exact heq
        · have h1 := countBelow_lt (a :: t1) b a hgt hb1
          rw [ca b, countBelow_head, countBelow_head] at h1
          omega
      subst hab
      rw [ih t2 hp.cons_inv (List.nodup_cons.1 hn).2 hr]

/-- The hash of a node with at most 12 tiles is the rank of its tiles. -/
theorem hash_eq_rank (a : NPuzzleNode) (hn : a.val.length ≤ 12) :
    NPuzzleNode.hash cantorExpand a = cantorRank a.val := by
  have h1 := cantorRank_lt a.val
  have h2 : a.val.length.factorial ≤ Nat.factorial 12 := Nat.factorial_le hn
  have h3 : Nat.factorial 12 < 2 ^ 32 := by decide
  unfold NPuzzleNode.hash cantorExpand NPuzzleNode.getSize
  rw [Int.toNat_ofNat, List.take_length]
  have h4 : ((cantorRank a.val : Int)) % 2 ^ 32 = (cantorRank a.val : Int) :=
    Int.emod_eq_of_lt (by positivity) (by
      have : cantorRank a.val < 2 ^ 32 := by omega
      exact_mod_cast this)
  rw [h4, Int.toNat_ofNat]

/-- C13 fails as stated: the two arrangements `{0,1,...,15}` and
`{0,1,2,11,15,9,8,13,3,4,7,5,12,14,6,10}` of the 4 x 4 grid, both permutations of
`0..15`, have different tiles and the same hash value (their ranks are `0` and
`2^32`). -/
theorem hash_collision_16 :
    List.Perm perm16a.val ((List.range 16).map Int.ofNat) ∧
      List.Perm perm16b.val ((List.range 16).map Int.ofNat) ∧
      perm16a.val ≠ perm16b.val ∧
      NPuzzleNode.hash cantorExpand perm16a = NPuzzleNode.hash cantorExpand perm16b :=
  ⟨by decide, by decide, by decide, by decide⟩

/-- C13, as the code has it: for two states with the same number `n ≤ 12` of tiles
(so that `n! < 2^32`), the tiles of the second a rearrangement of the distinct tiles of
the first (as for two permutations of `0..n-1`), the hash values are equal iff the
tile sequences are equal; and for every size, equal tile sequences have equal hash
values. -/
theorem hash_injective_small (a b : NPuzzleNode)
    (ha : List.Perm a.val ((List.range a.val.length).map Int.ofNat))
    (hb : List.Perm b.val ((List.range a.val.length).map Int.ofNat))
    (hn : a.val.length ≤ 12) :
    (NPuzzleNode.hash cantorExpand a = NPuzzleNode.hash cantorExpand b ↔ a.val = b.val) ∧
      ∀ c d : NPuzzleNode, c.val = d.val →
        NPuzzleNode.hash cantorExpand c = NPuzzleNode.hash cantorExpand d := by
  have hnd : a.val.Nodup :=
    (List.Perm.nodup_iff ha).2
      (List.Nodup.map (f := Int.ofNat) (fun _ _ hxy => Int.ofNat.inj hxy)
        (List.nodup_range _))
  have hab : List.Perm a.val b.val := ha.trans hb.symm
  have hlb : b.val.length ≤ 12 := by rw [← hab.length_eq]; exact hn
  refine ⟨⟨fun h => ?_, fun h => ?_⟩, fun c d h => ?_⟩
  · rw [hash_eq_rank a hn, hash_eq_rank b hlb] at h
    exact cantorRank_injective a.val b.val hab hnd h
  · simp only [NPuzzleNode.hash, NPuzzleNode.getSize, h]
  · simp only [NPuzzleNode.hash, NPuzzleNode.getSize, h]

/-- C13 (amended), instance: the 2 x 2 boards `{1,2,0,3}` and `{1,2,3,0}`. -/
theorem hash_injective_small_witness :
    List.Perm boardA.val ((List.range boardA.val.length).map Int.ofNat) ∧
      List.Perm boardB.val ((List.range boardA.val.length).map Int.ofNat) ∧
      (NPuzzleNode.hash cantorExpand boardA = NPuzzleNode.hash cantorExpand boardB ↔
        boardA.val = boardB.val) :=
  ⟨by decide, by decide,
    (hash_injective_small boardA boardB (by decide) (by decide) (by decide)).1⟩

end Algorithm


/-! ## The heuristic (C15, C20) -/

theorem isqrtFrom_eq (n b : Nat) (h : Nat.sqrt n ≤ b) : isqrtFrom n b = Nat.sqrt n := by
  induction b with
  | zero =>
    rw [isqrtFrom]
    omega
  | succ b ih =>
    rw [isqrtFrom]
    split_ifs with hc
    · have := Nat.le_sqrt.2 hc
      omega
    · have hnot : ¬ b + 1 ≤ Nat.sqrt n := fun hle => hc (Nat.le_sqrt.1 hle)
      exact ih (by omega)

/-- The truncated square root of the embedding is the integer square root. -/
theorem isqrt_eq (x : Int) : isqrt x = (Nat.sqrt x.toNat : Int) := by
  unfold isqrt
  rw [isqrtFrom_eq _ _ (Nat.sqrt_le_self _)]

theorem ite_sub_eq_abs (a b : Int) : (if b < a then a - b else b - a) = |a - b| := by
  split_ifs with h
  · rw [abs_of_pos (by omega)]
  · rw [abs_of_nonpos (by omega)]
    omega

theorem bne_eq_decide_ne (a b : Int) : (a != b) = decide (a ≠ b) := by
  by_cases h : a = b
  · subst h
    simp
  · simp [h]

namespace NPuzzle

open NPuzzleNode

/-- The tiles of a valid state are the integers `0 .. n - 1`, in some order. -/
theorem Valid.tile_range {n : NPuzzleNode} (hv : n.Valid) {i : Nat} (hi : i < n.val.length) :
    0 ≤ n.val.getD i 0 ∧ n.val.getD i 0 < n.val.length := by
  have hmem : n.val.getD i 0 ∈ n.val := by
    rw [List.getD_eq_getElem _ _ hi]
    exact List.getElem_mem _
  have := hv.perm.mem_iff.1 hmem
  rw [List.mem_map] at this
  obtain ⟨k, hk, hkv⟩ := this
  rw [List.mem_range] at hk
  rw [← hkv]
  constructor
  · exact Int.ofNat_nonneg k
  · exact Int.ofNat_lt.2 hk

/-- The value of `estimateH` when the goal has room for the tiles of the state. -/
theorem estimateH_some (des n : NPuzzleNode) (hl : n.val.length ≤ des.val.length) :
    estimateH des n = some
      ((((List.range (n.val.length - 1)).filter
          (fun i => n.val.getD i 0 + 1 != n.val.getD (i + 1) 0)).length : Int) +
        (((List.range n.val.length).filter
          (fun i => n.val.getD i 0 != des.val.getD i 0)).length : Int) +
        getEstimateDist n) := by
  unfold estimateH
  rw [if_pos hl]
  simp only [one_mul, getSize, Int.toNat_ofNat]
  have : ((n.val.length : Int) - 1).toNat = n.val.length - 1 := by omega
  rw [this]

/-- One summand of `getEstimateDist`, for a tile `v ≥ 0` at index `i`, in the words of
the spec. -/
theorem dist_term_eq (n : NPuzzleNode) (hc : 0 ≤ n.col) (i : Nat) (v : Int) (h0 : 0 ≤ v) :
    (if v ≠ 0 then
      let curR := n.getRow i
      let curC := n.getCol i
      let desR := n.getRow (v - 1)
      let desC := n.getCol (v - 1)
      let dR := if curR > desR then curR - desR else desR - curR
      let dC := if curC > desC then curC - desC else desC - curC
      (dR + dC) + isqrt (dR * dR + dC * dC)
    else 0) =
    (if v = 0 then 0
    else
      (|(i : Int) / n.col - (v - 1) / n.col| + |(i : Int) % n.col - (v - 1) % n.col|) +
        (Nat.sqrt (((i : Int) / n.col - (v - 1) / n.col) ^ 2 +
          ((i : Int) % n.col - (v - 1) % n.col) ^ 2).toNat : Int)) := by
  by_cases hz : v = 0
  · rw [if_neg (not_not.2 hz), if_pos hz]
  · have h1 : 0 ≤ v - 1 := by omega
    rw [if_pos hz, if_neg hz]
    simp only [getRow, getCol, gt_iff_lt, Int.tdiv_eq_ediv (Int.ofNat_nonneg i) hc,
      Int.tmod_eq_emod (Int.ofNat_nonneg i) hc, Int.tdiv_eq_ediv h1 hc,
      Int.tmod_eq_emod h1 hc, ite_sub_eq_abs, isqrt_eq, abs_mul_abs_self, pow_two]

/-- The distance part of the heuristic of a valid state, in the words of the spec. -/
theorem getEstimateDist_eq_spec {n : NPuzzleNode} (hv : n.Valid) :
    getEstimateDist n = specDistance n.col n.val := by
  unfold getEstimateDist specDistance
  congr 1
  apply List.map_congr_left
  intro i hi
  rw [List.mem_range] at hi
  obtain ⟨h0, -⟩ := Valid.tile_range hv hi
  have hc : 0 ≤ n.col := by have := hv.col_ge; omega
  exact dist_term_eq n hc i _ h0

/-- The heuristic of any state whose goal has the same size: the two counts of the
spec and the distance part of the code. -/
theorem estimateH_eq_counts (des n : NPuzzleNode) (hl : des.val.length = n.val.length) :
    estimateH des n = some ((specAdjacency n.val : Int) + (specMisplaced n.val des.val : Int) +
      getEstimateDist n) := by
  rw [estimateH_some des n (by omega)]
  have hs : (List.range (n.val.length - 1)).filter
      (fun i => n.val.getD i 0 + 1 != n.val.getD (i + 1) 0) =
      (List.range (n.val.length - 1)).filter
        (fun i => decide (n.val.getD i 0 + 1 ≠ n.val.getD (i + 1) 0)) := by
    congr 1
    funext i
    exact bne_eq_decide_ne _ _
  have hw : (List.range n.val.length).filter
      (fun i => n.val.getD i 0 != des.val.getD i 0) =
      (List.range n.val.length).filter
        (fun i => decide (n.val.getD i 0 ≠ des.val.getD i 0)) := by
    congr 1
    funext i
    exact bne_eq_decide_ne _ _
  rw [hs, hw]
  rfl

/-- The heuristic of a valid state in the words of the spec: `s + w + d` with
`row(k) = k div cols` and `col(k) = k mod cols`. -/
theorem estimateH_eq_spec_of_valid (des n : NPuzzleNode) (hv : n.Valid)
    (hl : des.val.length = n.val.length) :
    estimateH des n = some ((specAdjacency n.val : Int) + (specMisplaced n.val des.val : Int) +
      specDistance n.col n.val) := by
  rw [estimateH_eq_counts des n hl, getEstimateDist_eq_spec hv]

end NPuzzle


namespace NPuzzle

open NPuzzleNode

end NPuzzle

end sl
